import Mathlib

/-!
# Verification of the draft-js inline-style plugin core

Shallow embedding of `src/index.js` of `draft-js-create-inline-style-plugin`
together with the draft-js / immutable.js collaborator operations the plugin
invokes, at the call shapes the plugin uses.  Machine integers (JS numbers
used as offsets) are modelled as `Int`; JS exceptions are modelled with
`Except JsError`; the deferred (`setTimeout`) continuations are modelled by
returning the list of states handed to the continuation, in invocation order
(single-threaded host, no interleaving: every `getEditorState()` call inside
one pass observes the same state, which is how all call sites in the source
use it).
-/

namespace DraftInline

/-- An inline style name: an uninterpreted string label such as "BOLD". -/
abbrev Style := String

/-- JS exceptions that can surface out of the plugin: either an error thrown
by a caller-supplied matcher, or a TypeError from dereferencing `undefined`
(e.g. `content.getBlockForKey(k)` for an absent key, or
`characterList.get(i)` out of range inside draft-js). -/
inductive JsError where
  | thrown (msg : String)
  | typeError (msg : String)
deriving DecidableEq, Repr

-- JS values of type `Except` are compared structurally in counterexample
-- evaluations.
deriving instance DecidableEq for Except

/-- One character of a block: its character and its inline style set.
draft-js `CharacterMetadata` holds the styles as an immutable `OrderedSet`;
we model that insertion-ordered set as a duplicate-free ordered list. -/
structure CharMeta where
  ch : Char
  style : List Style
deriving DecidableEq, Repr

/-- A draft-js `ContentBlock`: stable key plus the per-character list.
`getText()` is the characters, `getCharacterList()` the metadata; the two are
parallel, so one list holding both is the faithful model. -/
structure ContentBlock where
  key : String
  chars : List CharMeta
deriving DecidableEq, Repr

/-- A draft-js `ContentState`: the ordered block map.  Keys are unique in the
real `OrderedMap`; the list model only enforces that through `Nodup`
hypotheses where a proof needs it. -/
abbrev ContentState := List ContentBlock

/-- A draft-js `SelectionState` (the fields the plugin touches). -/
structure SelectionState where
  anchorKey : String
  anchorOffset : Int
  focusKey : String
  focusOffset : Int
  isBackward : Bool
deriving DecidableEq, Repr

/-- A draft-js `EditorState`, restricted to the components the plugin reads
or writes: the current content, the selection, and the transient
inline-style override for the next typed character (`none` models JS
`null`). -/
structure EditorState where
  currentContent : ContentState
  selection : SelectionState
  inlineStyleOverride : Option (List Style)
deriving DecidableEq, Repr

/-- `StyleChange` record produced by the collector (src/index.js:19-24). -/
structure StyleChange where
  start : Int
  «end» : Int
  styles : List Style
  blockKey : String
deriving DecidableEq, Repr

/-- An `InlineStyleDecorator` rule (src/index.js:14-17).  The strategy is a
caller-supplied matcher: given a block it reports `(start, end)` offset pairs
through a callback; we model the callback protocol by the list of reported
pairs in report order, and a thrown exception as `.error`. -/
structure InlineStyleDecorator where
  strategy : ContentBlock → Except JsError (List (Int × Int))
  styles : List Style

/-! ## Collaborator primitives (draft-js / immutable.js) -/

/-- immutable.js `List.get`: a negative index counts from the end; an index
that is still out of range yields `undefined` (`none`). -/
def listGetJs (l : List α) (i : Int) : Option α :=
  let j := if i < 0 then (l.length : Int) + i else i
  if j < 0 then none else l[j.toNat]?

/-- immutable.js index resolution used by `slice`: a negative index resolves
to `max 0 (size + i)`, a non-negative one to `min i size`. -/
def resolveIndex (i : Int) (size : Nat) : Nat :=
  if i < 0 then ((size : Int) + i).toNat else min i.toNat size

/-- immutable.js `List.slice(begin, end)`. -/
def sliceJs (l : List α) (b e : Int) : List α :=
  (l.take (resolveIndex e l.length)).drop (resolveIndex b l.length)

def SelectionState.getStartKey (s : SelectionState) : String :=
  if s.isBackward then s.focusKey else s.anchorKey

def SelectionState.getStartOffset (s : SelectionState) : Int :=
  if s.isBackward then s.focusOffset else s.anchorOffset

def SelectionState.getEndOffset (s : SelectionState) : Int :=
  if s.isBackward then s.anchorOffset else s.focusOffset

def SelectionState.isCollapsed (s : SelectionState) : Bool :=
  s.anchorKey == s.focusKey && s.anchorOffset == s.focusOffset

/-- `SelectionState.createEmpty(blockKey)`. -/
def SelectionState.createEmpty (key : String) : SelectionState :=
  { anchorKey := key, anchorOffset := 0, focusKey := key, focusOffset := 0,
    isBackward := false }

def ContentBlock.getText (b : ContentBlock) : List Char := b.chars.map (·.ch)

def ContentBlock.getLength (b : ContentBlock) : Nat := b.chars.length

/-- `ContentBlock.getInlineStyleAt(i)`: the style set of character `i`, or
the empty set when there is no such character. -/
def ContentBlock.getInlineStyleAt (b : ContentBlock) (i : Int) : List Style :=
  ((listGetJs b.chars i).map (·.style)).getD []

/-- `ContentState.getBlockForKey`: the block map holds one block per key; in
the list model that is the first block with the key. -/
def getBlockForKey (c : ContentState) (k : String) : Option ContentBlock :=
  c.find? (fun b => b.key == k)

/-- `OrderedSet.add` on a style set (via `CharacterMetadata.applyStyle`):
appends the style unless already present, preserving insertion order. -/
def insertStyle (st : Style) (l : List Style) : List Style :=
  if st ∈ l then l else l ++ [st]

def applyStyleChar (st : Style) (c : CharMeta) : CharMeta :=
  { c with style := insertStyle st c.style }

/-- The character loop of draft-js `ContentStateInlineStyle.add`: apply the
style to every character index `i ≤ j < e` of the character list.  `get` on
an index beyond the list yields `undefined` and the subsequent
`CharacterMetadata.applyStyle` dereference throws.  The start index is a
`Nat`: every selection reaching this operation went through `limitSelection`,
whose anchor is `max _ 0`. -/
def styleLoopGo (st : Style) : Nat → List CharMeta → Nat → Except JsError (List CharMeta)
  | 0, chars, _ => .ok chars
  | n + 1, chars, i =>
    match chars[i]? with
    | none => .error (.typeError "Cannot read property of undefined")
    | some c => styleLoopGo st n (chars.set i (applyStyleChar st c)) (i + 1)

def styleLoop (st : Style) (chars : List CharMeta) (i : Nat) (e : Int) :
    Except JsError (List CharMeta) :=
  styleLoopGo st (e - (i : Int)).toNat chars i

/-- draft-js `Modifier.applyInlineStyle` at the call shape the plugin uses: a
single-block selection (`anchorKey = focusKey`), so only the block under
`getStartKey` is rewritten.  A missing key throws inside draft-js. -/
def modifierApplyInlineStyle (content : ContentState) (selection : SelectionState)
    (st : Style) : Except JsError ContentState :=
  match getBlockForKey content selection.getStartKey with
  | none => .error (.typeError "Cannot read property of undefined")
  | some block =>
    (styleLoop st block.chars selection.getStartOffset.toNat
        selection.getEndOffset).map
      (fun cs => content.map
        (fun b => if b.key == selection.getStartKey then { b with chars := cs } else b))

/-- draft-js `Modifier.replaceText` at the call shape used by `stripStyles`:
a single-block selection; the selected character range is replaced by the
given text, every inserted character carrying the given style set. -/
def modifierReplaceText (content : ContentState) (selection : SelectionState)
    (text : List Char) (styles : List Style) : ContentState :=
  content.map (fun b =>
    if b.key == selection.getStartKey then
      { b with chars :=
          b.chars.take selection.getStartOffset.toNat
            ++ text.map (fun c => { ch := c, style := styles })
            ++ b.chars.drop (max selection.getEndOffset 0).toNat }
    else b)

/-- `EditorState.push(state, content, changeType)`: installs the new content
and clears the inline-style override (undo bookkeeping and the transient
`selectionAfter` are dropped: both call sites immediately overwrite the
selection through `acceptSelection`). -/
def EditorState.push (state : EditorState) (content : ContentState) : EditorState :=
  { state with currentContent := content, inlineStyleOverride := none }

/-- `EditorState.acceptSelection`: installs the selection and (through
draft-js `updateSelection`) clears the inline-style override. -/
def EditorState.acceptSelection (state : EditorState) (sel : SelectionState) :
    EditorState :=
  { state with selection := sel, inlineStyleOverride := none }

/-- `EditorState.forceSelection`: same state update as `acceptSelection` for
the components modelled here (the `forceSelection` rendering flag is not). -/
def EditorState.forceSelection (state : EditorState) (sel : SelectionState) :
    EditorState :=
  { state with selection := sel, inlineStyleOverride := none }

def EditorState.setInlineStyleOverride (state : EditorState) (o : List Style) :
    EditorState :=
  { state with inlineStyleOverride := some o }

/-- draft-js `lookUpwardForInlineStyle`: style of the last character of the
closest preceding non-empty block, or the empty set. -/
def lookUpwardForInlineStyle (content : ContentState) (fromKey : String) :
    List Style :=
  match ((content.reverse.dropWhile (fun b => !(b.key == fromKey))).drop 1).find?
      (fun b => b.getLength ≠ 0) with
  | some b => b.getInlineStyleAt ((b.getLength : Int) - 1)
  | none => []

/-- draft-js `getInlineStyleForCollapsedSelection`. -/
def getInlineStyleForCollapsedSelection (content : ContentState)
    (selection : SelectionState) : Except JsError (List Style) := do
  let startBlock ←
    match getBlockForKey content selection.getStartKey with
    | none => Except.error (JsError.typeError "Cannot read property of undefined")
    | some b => pure b
  let startOffset := selection.getStartOffset
  if startOffset > 0 then
    pure (startBlock.getInlineStyleAt (startOffset - 1))
  else if startBlock.getLength ≠ 0 then
    pure (startBlock.getInlineStyleAt 0)
  else
    pure (lookUpwardForInlineStyle content selection.getStartKey)

/-- draft-js `getInlineStyleForNonCollapsedSelection`. -/
def getInlineStyleForNonCollapsedSelection (content : ContentState)
    (selection : SelectionState) : Except JsError (List Style) := do
  let startBlock ←
    match getBlockForKey content selection.getStartKey with
    | none => Except.error (JsError.typeError "Cannot read property of undefined")
    | some b => pure b
  let startOffset := selection.getStartOffset
  if startOffset < (startBlock.getLength : Int) then
    pure (startBlock.getInlineStyleAt startOffset)
  else if startOffset > 0 then
    pure (startBlock.getInlineStyleAt (startOffset - 1))
  else
    pure (lookUpwardForInlineStyle content selection.getStartKey)

/-- draft-js `EditorState.getCurrentInlineStyle`. -/
def EditorState.getCurrentInlineStyle (state : EditorState) :
    Except JsError (List Style) :=
  match state.inlineStyleOverride with
  | some o => pure o
  | none =>
    if state.selection.isCollapsed then
      getInlineStyleForCollapsedSelection state.currentContent state.selection
    else
      getInlineStyleForNonCollapsedSelection state.currentContent state.selection

/-! ## The plugin core (src/index.js) -/

/-- `getChangesToApplyForState` (src/index.js:26-36): run one decorator's
strategy over every block, collecting one `StyleChange` per reported
`(start, end)` pair, carrying the decorator's style list.  A throwing
strategy aborts the traversal. -/
def getChangesStep (decorator : InlineStyleDecorator)
    (changes : List StyleChange) (block : ContentBlock) :
    Except JsError (List StyleChange) := do
  let pairs ← decorator.strategy block
  pure (changes ++ pairs.map (fun p =>
    { blockKey := block.key, start := p.1, «end» := p.2,
      styles := decorator.styles }))

def getChangesToApplyForState (decorator : InlineStyleDecorator)
    (editorState : EditorState) : Except JsError (List StyleChange) :=
  editorState.currentContent.foldlM (getChangesStep decorator) []

/-- `limitSelection` (src/index.js:38-46): clamp the anchor offset to `≥ 0`
and the focus offset to `≤` the block's text length. -/
def limitSelection (selection : SelectionState) (block : ContentBlock) :
    SelectionState :=
  { selection with
      anchorOffset := max selection.getStartOffset 0,
      focusOffset := min (block.getText.length : Int) selection.getEndOffset }

/-- `createSelectionForChange` (src/index.js:48-50). -/
def createSelectionForChange (change : StyleChange) : SelectionState :=
  { SelectionState.createEmpty change.blockKey with
      anchorOffset := change.start, focusOffset := change.«end» }

/-- `applyInlineStyles` (src/index.js:52-69): fold over the style list;
per style, look the block up in the *entry* content (the `content`
parameter, per line 55), slice its characters over the selection, compare
the slice's style lists with a uniform repetition of the change's *full*
style list, bump the counter on inequality, and apply the single style to
the accumulated content.  The mutable `changesApplied`/`incrementApplied`
closure pair is modelled by threading the counter. -/
def applyInlineStylesStep (content : ContentState) (selection : SelectionState)
    (styles : List Style) (acc : ContentState × Nat) (_style : Style) :
    Except JsError (ContentState × Nat) := do
  let block ←
    match getBlockForKey content selection.getStartKey with
    | none => Except.error (JsError.typeError "Cannot read property of undefined")
    | some b => pure b
  let chars := sliceJs block.chars selection.getStartOffset selection.getEndOffset
  let stylesInBlock := chars.map (fun c => c.style)
  let styleList := List.replicate stylesInBlock.length styles
  let n := if stylesInBlock = styleList then acc.2 else acc.2 + 1
  let content2 ← modifierApplyInlineStyle acc.1 selection _style
  pure (content2, n)

def applyInlineStyles (content : ContentState) (selection : SelectionState)
    (styles : List Style) (n0 : Nat) : Except JsError (ContentState × Nat) :=
  styles.foldlM (applyInlineStylesStep content selection styles) (content, n0)

/-- `resetStateToUnstyled` (src/index.js:71-73). -/
def resetStateToUnstyled (editorState : EditorState) : EditorState :=
  EditorState.setInlineStyleOverride editorState []

/-- The content/counter fold of `applyChangesToState` (src/index.js:78-88):
left fold of `applyInlineStyles` over the changes, with the selection built
from each change and clamped against the block as currently accumulated. -/
def applyChangesStep (acc : ContentState × Nat) (change : StyleChange) :
    Except JsError (ContentState × Nat) := do
  let block ←
    match getBlockForKey acc.1 change.blockKey with
    | none => Except.error (JsError.typeError "Cannot read property of undefined")
    | some b => pure b
  applyInlineStyles acc.1
    (limitSelection (createSelectionForChange change) block)
    change.styles acc.2

def applyChangesCore (changes : List StyleChange) (content : ContentState) :
    Except JsError (ContentState × Nat) :=
  changes.foldlM applyChangesStep (content, 0)

/-- `applyChangesToState` (src/index.js:75-102).  The declared flow type is
`void | EditorState`; the `Option` in the result is the image of that type
(`none` = `undefined`).  Note line 101 returns the original `state`, not
`undefined`, when the counter is zero. -/
def applyChangesToState (changes : List StyleChange) (state : EditorState) :
    Except JsError (Option EditorState) := do
  let (content, changesApplied) ← applyChangesCore changes state.currentContent
  let maybeTheNewState :=
    resetStateToUnstyled
      (EditorState.acceptSelection (EditorState.push state content)
        state.selection)
  pure (some (if changesApplied = 0 then state else maybeTheNewState))

/-- The collection loop of `syncExecuteStrategies` (src/index.js:106-109). -/
def collectStep (state : EditorState) (changes : List StyleChange)
    (decorator : InlineStyleDecorator) : Except JsError (List StyleChange) := do
  let cs ← getChangesToApplyForState decorator state
  pure (changes ++ cs)

def collectAll (decorators : List InlineStyleDecorator) (state : EditorState) :
    Except JsError (List StyleChange) :=
  decorators.foldlM (collectStep state) []

/-- `syncExecuteStrategies` (src/index.js:104-112).  Both
`getEditorState()` invocations (lines 105 and 110) observe the same state:
every call site passes a constant getter for the duration of the pass. -/
def syncExecuteStrategies (decorators : List InlineStyleDecorator)
    (state : EditorState) : Except JsError (Option EditorState) := do
  let changesToApply ← collectAll decorators state
  applyChangesToState changesToApply state

/-- The `changesApplied` count a reconciliation pass over `state` would
report: the observable the spec's idempotence property speaks about. -/
def passCount (decorators : List InlineStyleDecorator) (state : EditorState) :
    Except JsError Nat := do
  let changes ← collectAll decorators state
  let (_, n) ← applyChangesCore changes state.currentContent
  pure n

/-- `executeStrategies` (src/index.js:114-118): the deferred task pushes the
pass result, falling back to the current state on a falsy result.  The value
returned here is the state handed to `setEditorState` (or the error if the
deferred task throws). -/
def executeStrategies (decorators : List InlineStyleDecorator)
    (state : EditorState) : Except JsError EditorState := do
  let r ← syncExecuteStrategies decorators state
  pure (r.getD state)

/-- `stripStyles` (src/index.js:120-146): rebuild every block's text with an
empty style set, then hand the pushed state to the continuation; the value
returned here is the state passed to `afterwards`. -/
def stripStep (contentState : ContentState) (block : ContentBlock) : ContentState :=
  let allBlock :=
    { SelectionState.createEmpty block.key with
        anchorOffset := 0, focusOffset := (block.getText.length : Int) }
  modifierReplaceText contentState allBlock block.getText []

def stripStyles (state : EditorState) : EditorState :=
  let currentContent := state.currentContent
  let newContent := currentContent.foldl stripStep currentContent
  EditorState.acceptSelection (EditorState.push state newContent) state.selection

/-- `checkIfWeNeedToStripStyles` (src/index.js:148-159): force the selection,
read the current inline style set; when non-empty, defer a strip whose result
goes to `afterwards`, and return `true`; otherwise return `undefined`
(modelled `false`) — `afterwards` is then never invoked.  The second
component is the list of arguments `afterwards` receives. -/
def checkIfWeNeedToStripStyles (state : EditorState) :
    Except JsError (Bool × List EditorState) := do
  let selectedState := EditorState.forceSelection state state.selection
  let sty ← selectedState.getCurrentInlineStyle
  if sty.length > 0 then
    pure (true, [stripStyles state])
  else
    pure (false, [])

/-- The plugin's `onChange` hook (src/index.js:165-172). -/
def onChange (decorators : List InlineStyleDecorator) (state : EditorState) :
    Except JsError EditorState := do
  let r ← syncExecuteStrategies decorators state
  let newState := r.getD state
  pure (EditorState.setInlineStyleOverride newState [])

/-- The plugin's `handleReturn` hook (src/index.js:186-193): unconditionally
invoke the guard; each continuation invocation runs a deferred
reconciliation pass over the state it received.  The result is the list of
push events produced by the deferred chain. -/
def handleReturn (decorators : List InlineStyleDecorator) (state : EditorState) :
    Except JsError (List (Except JsError EditorState)) := do
  let (_, calls) ← checkIfWeNeedToStripStyles state
  pure (calls.map (fun newState => executeStrategies decorators newState))

/-- The plugin's `handleKeyCommand` hook (src/index.js:174-184). -/
def handleKeyCommand (decorators : List InlineStyleDecorator) (command : String)
    (state : EditorState) : Except JsError (List (Except JsError EditorState)) :=
  if command == "backspace" then do
    let (_, calls) ← checkIfWeNeedToStripStyles state
    pure (calls.map (fun newState => executeStrategies decorators newState))
  else
    pure []

/-! ## Derived observables and specification-side functions -/

/-- The character of block `k` at index `i` (through the block map's single
entry for `k`). -/
def charAt (c : ContentState) (k : String) (i : Nat) : Option CharMeta :=
  (getBlockForKey c k).bind (fun b => b.chars[i]?)

/-- The length of the block stored under key `k` (0 when absent). -/
def lenAt (c : ContentState) (k : String) : Nat :=
  ((getBlockForKey c k).map (fun b => b.chars.length)).getD 0

/-- The text of the block stored under key `k`. -/
def textAt (c : ContentState) (k : String) : Option (List Char) :=
  (getBlockForKey c k).map (fun b => b.getText)

/-- Apply a whole style list to one character, in list order. -/
def applyAll (styles : List Style) (cm : CharMeta) : CharMeta :=
  styles.foldl (fun acc st => applyStyleChar st acc) cm

/-- Insert a whole style list into a style set, in list order. -/
def insertAll (styles : List Style) (l : List Style) : List Style :=
  styles.foldl (fun acc st => insertStyle st acc) l

/-- Whether a `StyleChange` covers character index `i` of the block with key
`k` and length `len`, after the clamping `limitSelection` performs. -/
def coversB (ch : StyleChange) (len : Nat) (k : String) (i : Nat) : Bool :=
  (ch.blockKey == k) && decide (max ch.start 0 ≤ (i : Int))
    && decide ((i : Int) < min (len : Int) ch.«end»)

/-- The cumulative effect of a change list on one character: each covering
change applies its whole style list. -/
def reconcileChar (changes : List StyleChange) (len : Nat) (k : String) (i : Nat)
    (cm : CharMeta) : CharMeta :=
  changes.foldl (fun cm ch => if coversB ch len k i then applyAll ch.styles cm else cm) cm

/-- The `(start, end)` pairs a decorator's strategy reports on a block
(meaningful when the strategy does not throw there). -/
def reportedPairs (d : InlineStyleDecorator) (b : ContentBlock) : List (Int × Int) :=
  ((d.strategy b).toOption).getD []

/-- The `StyleChange` the collector builds for one reported pair. -/
def mkChange (d : InlineStyleDecorator) (b : ContentBlock) (p : Int × Int) :
    StyleChange :=
  { blockKey := b.key, start := p.1, «end» := p.2, styles := d.styles }

/-- The change list a collection pass produces when no strategy throws. -/
def collectSpec (decorators : List InlineStyleDecorator)
    (blocks : List ContentBlock) : List StyleChange :=
  decorators.flatMap (fun d => blocks.flatMap (fun b => (reportedPairs d b).map (mkChange d b)))

/-- A block with the same key and text and all inline styles removed. -/
def stripBlock (b : ContentBlock) : ContentBlock :=
  { b with chars := b.getText.map (fun c => { ch := c, style := [] }) }

/-- Modelled from the spec (for the C7 refinement comparison only; the
implementation's counting is in `applyInlineStyles`): the claimed increment
policy — for each style name of a change, increment when some character in
the clamped selection does not already carry exactly that one style as its
sole style, uniformly across the selection. -/
def claimedIncrements (styles : List Style) (slice : List CharMeta) : Nat :=
  (styles.map (fun st => if ∀ c ∈ slice, c.style = [st] then 0 else 1)).sum

/-! ## Concrete example inputs -/

/-- A one-character unstyled block. -/
def exBlockA : ContentBlock := { key := "b1", chars := [{ ch := 'a', style := [] }] }

/-- A one-block unstyled editor state. -/
def exStateA : EditorState :=
  { currentContent := [exBlockA], selection := SelectionState.createEmpty "b1",
    inlineStyleOverride := none }

/-- A two-character block whose characters already carry the foreign style
"X". -/
def exStyledBlock : ContentBlock :=
  { key := "b1", chars := [{ ch := 'a', style := ["X"] }, { ch := 'b', style := ["X"] }] }

def exStyledState : EditorState :=
  { currentContent := [exStyledBlock], selection := SelectionState.createEmpty "b1",
    inlineStyleOverride := none }

/-- A decorator whose matcher always reports the range `[0, 2)` with style
"B". -/
def exDecorator : InlineStyleDecorator :=
  { strategy := fun _ => .ok [(0, 2)], styles := ["B"] }

/-- The change `exDecorator` reports on `exStyledBlock`. -/
def exChange : StyleChange := { start := 0, «end» := 2, styles := ["B"], blockKey := "b1" }

/-- The state one reconciliation pass produces from `exStyledState` under
`exDecorator`: both characters gain "B" (keeping "X"), the override is
cleared. -/
def exStyledResult : EditorState :=
  { currentContent :=
      [{ key := "b1",
         chars := [{ ch := 'a', style := ["X", "B"] }, { ch := 'b', style := ["X", "B"] }] }],
    selection := SelectionState.createEmpty "b1",
    inlineStyleOverride := some [] }

/-- A decorator whose matcher always throws. -/
def exThrowDecorator : InlineStyleDecorator :=
  { strategy := fun _ => .error (.thrown "matcher exploded"), styles := ["B"] }

/-- A state with a pending inline-style override. -/
def c8exState : EditorState :=
  { currentContent := [exBlockA], selection := SelectionState.createEmpty "b1",
    inlineStyleOverride := some ["X"] }

/-- Block and change for the C7 counterexample: both characters already
carry exactly the two-style list `["A", "B"]`. -/
def c7exBlock : ContentBlock :=
  { key := "b1", chars := [{ ch := 'x', style := ["A", "B"] }, { ch := 'y', style := ["A", "B"] }] }

def c7exContent : ContentState := [c7exBlock]

def c7exChange : StyleChange := { start := 0, «end» := 2, styles := ["A", "B"], blockKey := "b1" }

def c7exSelection : SelectionState :=
  limitSelection (createSelectionForChange c7exChange) c7exBlock

/-- Block and change for the C3 counterexample: a reported start offset of 5
on a two-character block. -/
def c3exBlock : ContentBlock :=
  { key := "b1", chars := [{ ch := 'a', style := [] }, { ch := 'b', style := [] }] }

def c3exChange : StyleChange := { start := 5, «end» := 7, styles := ["B"], blockKey := "b1" }

/-- A decorator reporting wildly out-of-range offsets, for the C3 witness. -/
def exWildDecorator : InlineStyleDecorator :=
  { strategy := fun _ => .ok [(-10, 50), (5, -3)], styles := ["W"] }

def c3exState : EditorState :=
  { currentContent := [c3exBlock], selection := SelectionState.createEmpty "b1",
    inlineStyleOverride := none }

/-- A `StyleChange` whose clamped slice already carries exactly its style
list uniformly: processing it neither changes the content nor bumps the
counter. -/
def changeIsNoop (c : ContentState) (ch : StyleChange) : Prop :=
  ∃ block, getBlockForKey c ch.blockKey = some block ∧
    (sliceJs block.chars
      (limitSelection (createSelectionForChange ch) block).getStartOffset
      (limitSelection (createSelectionForChange ch) block).getEndOffset).map
        (fun cc => cc.style) =
    List.replicate ((sliceJs block.chars
      (limitSelection (createSelectionForChange ch) block).getStartOffset
      (limitSelection (createSelectionForChange ch) block).getEndOffset).map
        (fun cc => cc.style)).length ch.styles

/-- Blocks and rules for the C6 witness: `B` on `[0,3)` and `U` on `[1,4)`
overlap at indices 1 and 2. -/
def c6exBlock : ContentBlock :=
  { key := "b1",
    chars := [{ ch := 'a', style := [] }, { ch := 'b', style := [] },
              { ch := 'c', style := [] }, { ch := 'd', style := [] }] }

def c6exState : EditorState :=
  { currentContent := [c6exBlock], selection := SelectionState.createEmpty "b1",
    inlineStyleOverride := none }

def c6exD1 : InlineStyleDecorator :=
  { strategy := fun _ => .ok [(0, 3)], styles := ["B"] }

def c6exD2 : InlineStyleDecorator :=
  { strategy := fun _ => .ok [(1, 4)], styles := ["U"] }

/-! ## General lemmas about the embedding -/

theorem exceptBind_ok {ε α β : Type} (a : α) (f : α → Except ε β) :
    (Except.ok a >>= f) = f a := rfl

theorem exceptBind_error {ε α β : Type} (e : ε) (f : α → Except ε β) :
    ((Except.error e : Except ε α) >>= f) = .error e := rfl

theorem exceptPure {ε α : Type} (a : α) : (pure a : Except ε α) = .ok a := rfl

theorem insertStyle_of_mem {st : Style} {l : List Style} (h : st ∈ l) :
    insertStyle st l = l := by
  simp [insertStyle, h]

theorem mem_insertStyle_self (st : Style) (l : List Style) : st ∈ insertStyle st l := by
  by_cases h : st ∈ l <;> simp [insertStyle, h]

theorem mem_insertStyle_of_mem {x st : Style} {l : List Style} (h : x ∈ l) :
    x ∈ insertStyle st l := by
  by_cases hm : st ∈ l <;> simp [insertStyle, hm, h]

theorem mem_insertAll_of_mem {x : Style} {styles l : List Style} (h : x ∈ l) :
    x ∈ insertAll styles l := by
  induction styles generalizing l with
  | nil => simpa [insertAll]
  | cons hd tl ih =>
    simpa [insertAll] using ih (mem_insertStyle_of_mem h)

theorem mem_insertAll_left {st : Style} {styles l : List Style} (h : st ∈ styles) :
    st ∈ insertAll styles l := by
  induction styles generalizing l with
  | nil => cases h
  | cons hd tl ih =>
    rcases List.mem_cons.mp h with h | h
    · subst h
      simpa [insertAll] using mem_insertAll_of_mem (mem_insertStyle_self st l)
    · simpa [insertAll] using ih h

theorem insertAll_of_subset {styles l : List Style} (h : ∀ x ∈ styles, x ∈ l) :
    insertAll styles l = l := by
  induction styles with
  | nil => rfl
  | cons hd tl ih =>
    have hhd : hd ∈ l := h hd (List.mem_cons_self hd tl)
    simpa [insertAll, insertStyle_of_mem hhd] using ih (fun x hx => h x (List.mem_cons_of_mem hd hx))

theorem insertAll_append_of_disjoint {styles acc : List Style}
    (hn : styles.Nodup) (hd : ∀ x ∈ styles, x ∉ acc) :
    insertAll styles acc = acc ++ styles := by
  induction styles generalizing acc with
  | nil => simp [insertAll]
  | cons s tl ih =>
    have hs : s ∉ acc := hd s (List.mem_cons_self s tl)
    have h1 : insertStyle s acc = acc ++ [s] := by simp [insertStyle, hs]
    have htl : tl.Nodup := (List.nodup_cons.mp hn).2
    have hstl : s ∉ tl := (List.nodup_cons.mp hn).1
    have hd' : ∀ x ∈ tl, x ∉ acc ++ [s] := by
      intro x hx
      simp only [List.mem_append, List.mem_singleton]
      rintro (hxa | hxs)
      · exact hd x (List.mem_cons_of_mem s hx) hxa
      · exact hstl (hxs ▸ hx)
    calc insertAll (s :: tl) acc = insertAll tl (acc ++ [s]) := by
          simp [insertAll, h1]
      _ = (acc ++ [s]) ++ tl := ih htl hd'
      _ = acc ++ s :: tl := by simp

theorem insertAll_nil_of_nodup {styles : List Style} (h : styles.Nodup) :
    insertAll styles [] = styles := by
  simpa using insertAll_append_of_disjoint h (by simp)

theorem applyAll_style (styles : List Style) (cm : CharMeta) :
    (applyAll styles cm).style = insertAll styles cm.style ∧
      (applyAll styles cm).ch = cm.ch := by
  induction styles generalizing cm with
  | nil => exact ⟨rfl, rfl⟩
  | cons hd tl ih =>
    have := ih (applyStyleChar hd cm)
    simpa [applyAll, insertAll, applyStyleChar] using this

/-- A counting principle for `foldlM` over `Except` when every successful
step adds the same increment to the counter component. -/
theorem foldlM_counter {α β : Type} (f : α × Nat → β → Except JsError (α × Nat))
    (inc : Nat) (hf : ∀ a n b r, f (a, n) b = .ok r → r.2 = n + inc) :
    ∀ (l : List β) (a : α) (n : Nat) (r : α × Nat),
      l.foldlM f (a, n) = .ok r → r.2 = n + inc * l.length := by
  intro l
  induction l with
  | nil =>
    intro a n r h
    simp only [List.foldlM_nil] at h
    cases h
    simp
  | cons hd tl ih =>
    intro a n r h
    rw [List.foldlM_cons] at h
    cases hstep : f (a, n) hd with
    | error e => rw [hstep] at h; cases h
    | ok acc =>
      rw [hstep] at h
      simp only [exceptBind_ok] at h
      obtain ⟨a1, n1⟩ := acc
      have h1 := hf a n hd (a1, n1) hstep
      have h2 := ih a1 n1 r h
      simp only at h1
      subst h1
      rw [h2, List.length_cons, Nat.mul_succ]
      omega

/-! ## C2: no-op result of the Convergence Driver -/

/-- C2, counterexample: the claim says a pass with `changesApplied == 0`
returns nothing (`undefined`); in fact `applyChangesToState` (line 101)
returns the original `state`, so the driver yields the original editor
state, never `undefined`. -/
theorem c2_counterexample :
    passCount [] exStateA = .ok 0 ∧
      syncExecuteStrategies [] exStateA = .ok (some exStateA) ∧
      syncExecuteStrategies [] exStateA ≠ .ok none := by
  refine ⟨rfl, rfl, ?_⟩
  decide

/-- C2 (amended): when a reconciliation pass ends with `changesApplied == 0`
the Convergence Driver returns the original editor state unchanged — a no-op
by identity, not the absence of a value. -/
theorem c2_noop_returns_original_state
    (decorators : List InlineStyleDecorator) (state : EditorState)
    (changes : List StyleChange) (c : ContentState)
    (hc : collectAll decorators state = .ok changes)
    (h0 : applyChangesCore changes state.currentContent = .ok (c, 0)) :
    syncExecuteStrategies decorators state = .ok (some state) := by
  unfold syncExecuteStrategies
  rw [hc]
  show applyChangesToState changes state = _
  unfold applyChangesToState
  rw [h0]
  rfl

theorem c2_noop_witness : syncExecuteStrategies [] exStateA = .ok (some exStateA) :=
  c2_noop_returns_original_state [] exStateA [] exStateA.currentContent rfl rfl

/-! ## C7: what the changed counter counts -/

/-- C7, counterexample: on a selection whose characters all carry exactly
the two-style list `["A", "B"]`, the claimed per-style policy ("some
character does not carry exactly that one style as its sole style") would
increment twice, but the implementation compares against the change's whole
style list and increments zero times. -/
theorem c7_counterexample :
    applyInlineStyles c7exContent c7exSelection ["A", "B"] 0 =
        .ok (c7exContent, 0) ∧
      claimedIncrements ["A", "B"]
        (sliceJs c7exBlock.chars c7exSelection.getStartOffset
          c7exSelection.getEndOffset) = 2 ∧
      (0 : Nat) ≠ 2 := by
  refine ⟨by decide, by decide, by decide⟩

/-- C7 (amended): for each `StyleChange` the counter is incremented once per
style name exactly when some character of the clamped selection does not
carry the change's *full* style list (compared as an ordered list), so a
change contributes either `0` or the length of its style list. -/
theorem c7_counter_full_list
    (content : ContentState) (selection : SelectionState) (styles : List Style)
    (n0 : Nat) (block : ContentBlock) (r : ContentState × Nat)
    (hb : getBlockForKey content selection.getStartKey = some block)
    (h : applyInlineStyles content selection styles n0 = .ok r) :
    r.2 = n0 +
      (if (sliceJs block.chars selection.getStartOffset selection.getEndOffset).map
            (fun c => c.style) =
          List.replicate (sliceJs block.chars selection.getStartOffset
            selection.getEndOffset).length styles
        then 0 else styles.length) := by
  unfold applyInlineStyles at h
  have hstep : ∀ (a : ContentState) (n : Nat) (b : Style) (r' : ContentState × Nat),
      applyInlineStylesStep content selection styles (a, n) b = .ok r' →
      r'.2 = n +
        (if (sliceJs block.chars selection.getStartOffset selection.getEndOffset).map
              (fun c => c.style) =
            List.replicate (sliceJs block.chars selection.getStartOffset
              selection.getEndOffset).length styles
          then 0 else 1) := by
    intro a n b r' hr
    unfold applyInlineStylesStep at hr
    rw [hb] at hr
    simp only [exceptBind_ok, exceptPure, List.length_map] at hr
    cases hmod : modifierApplyInlineStyle a selection b with
    | error e => rw [hmod] at hr; cases hr
    | ok c2 =>
      rw [hmod] at hr
      simp only [exceptBind_ok, exceptPure, Except.ok.injEq] at hr
      subst hr
      by_cases hc : (sliceJs block.chars selection.getStartOffset
            selection.getEndOffset).map (fun c => c.style) =
          List.replicate (sliceJs block.chars selection.getStartOffset
            selection.getEndOffset).length styles
      · simp [hc]
      · simp [hc]
  have hh := foldlM_counter _ _ hstep styles content n0 r h
  rw [hh]
  by_cases hc : (sliceJs block.chars selection.getStartOffset
        selection.getEndOffset).map (fun c => c.style) =
      List.replicate (sliceJs block.chars selection.getStartOffset
        selection.getEndOffset).length styles
  · simp [hc]
  · simp [hc]

theorem c7_counter_witness : (1 : Nat) = 0 + 1 := by
  have h := c7_counter_full_list exStyledState.currentContent
    (limitSelection (createSelectionForChange exChange) exStyledBlock)
    ["B"] 0 exStyledBlock
    (exStyledResult.currentContent, 1)
    (by decide) (by decide)
  exact h.trans (by decide)

/-! ## C8: resetting the inline-style override -/

/-- C8, counterexample: a pass that applies zero changes hands back the
original state with its pending override intact — the override is *not*
reset to empty on every driver output. -/
theorem c8_counterexample :
    syncExecuteStrategies [] c8exState = .ok (some c8exState) ∧
      c8exState.inlineStyleOverride = some ["X"] ∧
      c8exState.inlineStyleOverride ≠ some [] := by
  refine ⟨by decide, by decide, by decide⟩

/-- C8 (amended): the override is reset to empty on the *changed* output of
the reconciler (`changesApplied ≠ 0`), and the `onChange` hook additionally
resets it unconditionally on its own output; the unchanged output of the
driver keeps whatever override the input state carried. -/
theorem c8_override_reset :
    (∀ (changes : List StyleChange) (state : EditorState) (c : ContentState)
        (n : Nat) (s' : EditorState),
      applyChangesCore changes state.currentContent = .ok (c, n) → n ≠ 0 →
      applyChangesToState changes state = .ok (some s') →
      s'.inlineStyleOverride = some []) ∧
    (∀ (decorators : List InlineStyleDecorator) (state : EditorState)
        (s' : EditorState),
      onChange decorators state = .ok s' → s'.inlineStyleOverride = some []) := by
  constructor
  · intro changes state c n s' hcore hn happ
    unfold applyChangesToState at happ
    rw [hcore] at happ
    simp only [exceptBind_ok, exceptPure, Except.ok.injEq, Option.some.injEq,
      if_neg hn] at happ
    subst happ
    rfl
  · intro decorators state s' h
    unfold onChange at h
    cases hs : syncExecuteStrategies decorators state with
    | error e => rw [hs] at h; cases h
    | ok rr =>
      rw [hs] at h
      simp only [exceptBind_ok, exceptPure, Except.ok.injEq] at h
      subst h
      rfl

theorem c8_override_witness :
    exStyledResult.inlineStyleOverride = some [] ∧
      (EditorState.setInlineStyleOverride exStateA []).inlineStyleOverride = some [] :=
  ⟨c8_override_reset.1 [exChange] exStyledState exStyledResult.currentContent 1
      exStyledResult (by decide) (by decide) (by decide),
    c8_override_reset.2 [] exStateA (EditorState.setInlineStyleOverride exStateA [])
      (by decide)⟩

/-! ## C9 and C10: a throwing matcher -/

theorem getChanges_error_of_strategy_error
    (d : InlineStyleDecorator) (state : EditorState)
    (h : ∃ b ∈ state.currentContent, ∃ e, d.strategy b = .error e) :
    ∃ e, getChangesToApplyForState d state = .error e := by
  unfold getChangesToApplyForState
  obtain ⟨b, hb, e, he⟩ := h
  suffices hgen : ∀ (l : List ContentBlock) (acc : List StyleChange), b ∈ l →
      ∃ e', l.foldlM (getChangesStep d) acc = .error e' by
    exact hgen state.currentContent [] hb
  intro l
  induction l with
  | nil => intro acc hmem; cases hmem
  | cons hd tl ih =>
    intro acc hmem
    rw [List.foldlM_cons]
    cases hs : getChangesStep d acc hd with
    | error e' => exact ⟨e', rfl⟩
    | ok cs =>
      rcases List.mem_cons.mp hmem with rfl | hmem'
      · unfold getChangesStep at hs
        rw [he] at hs
        cases hs
      · simpa [exceptBind_ok] using ih _ hmem'

theorem collectAll_error_of_strategy_error
    (decorators : List InlineStyleDecorator) (state : EditorState)
    (h : ∃ d ∈ decorators, ∃ b ∈ state.currentContent, ∃ e, d.strategy b = .error e) :
    ∃ e, collectAll decorators state = .error e := by
  unfold collectAll
  obtain ⟨d, hd, hrest⟩ := h
  suffices hgen : ∀ (l : List InlineStyleDecorator) (acc : List StyleChange), d ∈ l →
      ∃ e', l.foldlM (collectStep state) acc = .error e' by
    exact hgen decorators [] hd
  intro l
  induction l with
  | nil => intro acc hmem; cases hmem
  | cons hd0 tl ih =>
    intro acc hmem
    rw [List.foldlM_cons]
    cases hs : collectStep state acc hd0 with
    | error e' => exact ⟨e', rfl⟩
    | ok cs =>
      rcases List.mem_cons.mp hmem with rfl | hmem'
      · obtain ⟨e', he'⟩ := getChanges_error_of_strategy_error _ state hrest
        unfold collectStep at hs
        rw [he'] at hs
        cases hs
      · simpa [exceptBind_ok] using ih _ hmem'

/-- C9: an exception thrown by any matcher during range collection
propagates synchronously out of the reconciliation pass: the pass evaluates
to that thrown error rather than to any editor state, so the caller sees the
exception and no retry happens (the strategies are consulted only through
this single aborted fold). -/
theorem c9_matcher_error_propagates
    (decorators : List InlineStyleDecorator) (state : EditorState)
    (h : ∃ d ∈ decorators, ∃ b ∈ state.currentContent, ∃ e, d.strategy b = .error e) :
    ∃ e, syncExecuteStrategies decorators state = .error e := by
  obtain ⟨e, he⟩ := collectAll_error_of_strategy_error decorators state h
  exact ⟨e, by unfold syncExecuteStrategies; rw [he]; rfl⟩

theorem c9_matcher_error_witness :
    ∃ e, syncExecuteStrategies [exThrowDecorator] exStateA = .error e :=
  c9_matcher_error_propagates [exThrowDecorator] exStateA
    ⟨exThrowDecorator, List.mem_singleton.mpr rfl, exBlockA, by decide,
      JsError.thrown "matcher exploded", rfl⟩

/-- C10: reconciliation is atomic with respect to matcher errors — the
collection fold fully precedes any style application, so when a matcher
throws, the pass produces no editor state at all (and `onChange` hands no
new state to the host): the input state and its document are left
untouched. -/
theorem c10_no_state_on_matcher_error
    (decorators : List InlineStyleDecorator) (state : EditorState)
    (h : ∃ d ∈ decorators, ∃ b ∈ state.currentContent, ∃ e, d.strategy b = .error e) :
    (∀ r, syncExecuteStrategies decorators state ≠ .ok r) ∧
      (∀ s', onChange decorators state ≠ .ok s') := by
  obtain ⟨e, he⟩ := collectAll_error_of_strategy_error decorators state h
  have hsync : syncExecuteStrategies decorators state = .error e := by
    unfold syncExecuteStrategies; rw [he]; rfl
  constructor
  · intro r hr
    rw [hsync] at hr
    cases hr
  · intro s' hs
    unfold onChange at hs
    rw [hsync] at hs
    cases hs

theorem c10_no_state_witness :
    syncExecuteStrategies [exThrowDecorator] exStateA ≠ .ok (some exStateA) ∧
      onChange [exThrowDecorator] exStateA ≠ .ok exStateA := by
  have h := c10_no_state_on_matcher_error [exThrowDecorator] exStateA
    ⟨exThrowDecorator, List.mem_singleton.mpr rfl, exBlockA, by decide,
      JsError.thrown "matcher exploded", rfl⟩
  exact ⟨h.1 (some exStateA), h.2 exStateA⟩

/-! ## C4: the return-key hook -/

/-- C4, counterexample: on a state whose forced selection carries no inline
style, the return-key hook's guard returns `undefined` without ever invoking
`afterwards` — no deferred reconciliation pass follows, contradicting the
claim that the continuation fires in every case. -/
theorem c4_counterexample :
    checkIfWeNeedToStripStyles exStateA = .ok (false, []) ∧
      handleReturn [exDecorator] exStateA = .ok [] := by
  refine ⟨by decide, rfl⟩

/-- C4 (amended): the return-key hook invokes the guard unconditionally, but
the `onNeedsStrip` continuation fires only when the forced selection's
current inline style set is non-empty; it then receives the deferred strip's
result and a deferred reconciliation pass follows.  When the style set is
empty the guard returns without invoking the continuation and no pass
runs. -/
theorem c4_guard_fires_only_when_styled
    (decorators : List InlineStyleDecorator) (state : EditorState)
    (sty : List Style)
    (h : (EditorState.forceSelection state state.selection).getCurrentInlineStyle
      = .ok sty) :
    handleReturn decorators state =
      .ok (if sty.length > 0
        then [executeStrategies decorators (stripStyles state)]
        else []) := by
  have hc : checkIfWeNeedToStripStyles state =
      .ok (if sty.length > 0 then (true, [stripStyles state]) else (false, [])) := by
    unfold checkIfWeNeedToStripStyles
    simp only [h, exceptBind_ok]
    by_cases hl : sty.length > 0 <;> simp [hl, exceptPure]
  unfold handleReturn
  rw [hc]
  by_cases hl : sty.length > 0 <;> simp [hl]

theorem c4_guard_witness :
    handleReturn [exDecorator] exStyledState =
      .ok [executeStrategies [exDecorator] (stripStyles exStyledState)] := by
  have h := c4_guard_fires_only_when_styled [exDecorator] exStyledState ["X"] (by decide)
  simpa using h

end DraftInline

namespace DraftInline

/-! ## Lemmas about the style loop and the modifier -/

theorem getBlockForKey_key {c : ContentState} {k : String} {b : ContentBlock}
    (h : getBlockForKey c k = some b) : b.key = k := by
  have := List.find?_some h
  simpa using this

theorem getBlockForKey_mem {c : ContentState} {k : String} {b : ContentBlock}
    (h : getBlockForKey c k = some b) : b ∈ c :=
  List.mem_of_find?_eq_some h

theorem getBlockForKey_isSome {c : ContentState} {k : String}
    (h : k ∈ c.map (fun b => b.key)) : ∃ b, getBlockForKey c k = some b := by
  rcases List.mem_map.mp h with ⟨b, hb, hk⟩
  have : (c.find? (fun b => b.key == k)).isSome := by
    rw [List.find?_isSome]
    exact ⟨b, hb, by simp [hk]⟩
  exact Option.isSome_iff_exists.mp this

theorem set_eq_self_of_getElem? {α : Type} {l : List α} {i : Nat} {a : α}
    (h : l[i]? = some a) : l.set i a = l := by
  apply List.ext_getElem?
  intro j
  rw [List.getElem?_set]
  by_cases hij : i = j
  · subst hij
    have hlen : i < l.length := by
      by_contra hge
      rw [List.getElem?_eq_none (by omega)] at h
      cases h
    simp [hlen, h]
  · simp [hij]

theorem styleLoopGo_length (st : Style) :
    ∀ (n : Nat) (chars : List CharMeta) (i : Nat) (cs : List CharMeta),
      styleLoopGo st n chars i = .ok cs → cs.length = chars.length := by
  intro n
  induction n with
  | zero => intro chars i cs h; cases h; rfl
  | succ m ih =>
    intro chars i cs h
    unfold styleLoopGo at h
    cases hg : chars[i]? with
    | none => rw [hg] at h; cases h
    | some c =>
      rw [hg] at h
      have := ih _ _ _ h
      simpa [List.length_set] using this

theorem styleLoopGo_text (st : Style) :
    ∀ (n : Nat) (chars : List CharMeta) (i : Nat) (cs : List CharMeta),
      styleLoopGo st n chars i = .ok cs →
      cs.map (fun c => c.ch) = chars.map (fun c => c.ch) := by
  intro n
  induction n with
  | zero => intro chars i cs h; cases h; rfl
  | succ m ih =>
    intro chars i cs h
    unfold styleLoopGo at h
    cases hg : chars[i]? with
    | none => rw [hg] at h; cases h
    | some c =>
      rw [hg] at h
      have hrec := ih _ _ _ h
      rw [hrec, List.map_set]
      have : (chars.map (fun c => c.ch))[i]? = some (applyStyleChar st c).ch := by
        rw [List.getElem?_map, hg]
        rfl
      exact set_eq_self_of_getElem? this

theorem styleLoopGo_ok (st : Style) :
    ∀ (n : Nat) (chars : List CharMeta) (i : Nat), i + n ≤ chars.length →
      ∃ cs, styleLoopGo st n chars i = .ok cs := by
  intro n
  induction n with
  | zero => intro chars i _; exact ⟨chars, rfl⟩
  | succ m ih =>
    intro chars i hle
    have hi : i < chars.length := by omega
    obtain ⟨cs, hcs⟩ := ih (chars.set i (applyStyleChar st chars[i])) (i + 1)
      (by rw [List.length_set]; omega)
    refine ⟨cs, ?_⟩
    unfold styleLoopGo
    rw [List.getElem?_eq_getElem hi]
    exact hcs

theorem styleLoop_ok (st : Style) (chars : List CharMeta) (i : Nat) (e : Int)
    (he : e ≤ (chars.length : Int)) :
    ∃ cs, styleLoop st chars i e = .ok cs := by
  unfold styleLoop
  by_cases hie : e ≤ (i : Int)
  · have : (e - (i : Int)).toNat = 0 := by omega
    rw [this]
    exact ⟨chars, rfl⟩
  · exact styleLoopGo_ok st _ chars i (by omega)

theorem styleLoop_length {st : Style} {chars : List CharMeta} {i : Nat} {e : Int}
    {cs : List CharMeta} (h : styleLoop st chars i e = .ok cs) :
    cs.length = chars.length :=
  styleLoopGo_length st _ chars i cs h

theorem styleLoop_text {st : Style} {chars : List CharMeta} {i : Nat} {e : Int}
    {cs : List CharMeta} (h : styleLoop st chars i e = .ok cs) :
    cs.map (fun c => c.ch) = chars.map (fun c => c.ch) :=
  styleLoopGo_text st _ chars i cs h

theorem find?_map_keyPreserving {f : ContentBlock → ContentBlock}
    (hf : ∀ b, (f b).key = b.key) (c : ContentState) (k : String) :
    getBlockForKey (c.map f) k = (getBlockForKey c k).map f := by
  unfold getBlockForKey
  rw [List.find?_map]
  have hp : ((fun b : ContentBlock => b.key == k) ∘ f) =
      (fun b : ContentBlock => b.key == k) := by
    funext b
    simp [Function.comp, hf]
  rw [hp]

theorem modifier_ok (content : ContentState) (selection : SelectionState)
    (st : Style) (block : ContentBlock)
    (hb : getBlockForKey content selection.getStartKey = some block)
    (he : selection.getEndOffset ≤ (block.chars.length : Int)) :
    ∃ c', modifierApplyInlineStyle content selection st = .ok c' := by
  unfold modifierApplyInlineStyle
  rw [hb]
  obtain ⟨cs, hcs⟩ := styleLoop_ok st block.chars selection.getStartOffset.toNat
    selection.getEndOffset he
  refine ⟨content.map
    (fun b => if b.key == selection.getStartKey then { b with chars := cs } else b), ?_⟩
  show Except.map _
    (styleLoop st block.chars selection.getStartOffset.toNat selection.getEndOffset) = _
  rw [hcs]
  rfl

theorem modifier_spec {content : ContentState} {selection : SelectionState}
    {st : Style} {c' : ContentState}
    (h : modifierApplyInlineStyle content selection st = .ok c') :
    ∃ block cs, getBlockForKey content selection.getStartKey = some block ∧
      styleLoop st block.chars selection.getStartOffset.toNat
        selection.getEndOffset = .ok cs ∧
      c' = content.map
        (fun b => if b.key == selection.getStartKey then { b with chars := cs } else b) := by
  unfold modifierApplyInlineStyle at h
  cases hb : getBlockForKey content selection.getStartKey with
  | none => rw [hb] at h; cases h
  | some block =>
    rw [hb] at h
    have h' : Except.map (fun cs => content.map
        (fun b => if b.key == selection.getStartKey then { b with chars := cs } else b))
        (styleLoop st block.chars selection.getStartOffset.toNat selection.getEndOffset)
        = Except.ok c' := h
    cases hcs : styleLoop st block.chars selection.getStartOffset.toNat
        selection.getEndOffset with
    | error e =>
      rw [hcs] at h'
      simp only [Except.map] at h'
      exact Except.noConfusion h'
    | ok cs =>
      rw [hcs] at h'
      simp only [Except.map, Except.ok.injEq] at h'
      exact ⟨block, cs, rfl, hcs, h'.symm⟩

theorem modifier_keys {content : ContentState} {selection : SelectionState}
    {st : Style} {c' : ContentState}
    (h : modifierApplyInlineStyle content selection st = .ok c') :
    c'.map (fun b => b.key) = content.map (fun b => b.key) := by
  obtain ⟨block, cs, _, _, rfl⟩ := modifier_spec h
  rw [List.map_map]
  apply List.map_congr_left
  intro b _
  by_cases hk : b.key == selection.getStartKey <;> simp [Function.comp, hk]

theorem modifier_textAt {content : ContentState} {selection : SelectionState}
    {st : Style} {c' : ContentState}
    (h : modifierApplyInlineStyle content selection st = .ok c') :
    ∀ k, textAt c' k = textAt content k := by
  obtain ⟨block, cs, hb, hcs, rfl⟩ := modifier_spec h
  intro k
  unfold textAt
  rw [find?_map_keyPreserving (by intro b; by_cases hk : b.key == selection.getStartKey <;>
    simp [hk])]
  cases hfind : getBlockForKey content k with
  | none => rfl
  | some b0 =>
    simp only [Option.map_map, Option.map_some]
    by_cases hk : k = selection.getStartKey
    · subst hk
      rw [hfind] at hb
      injection hb with hbb
      subst hbb
      have hbk : b0.key = selection.getStartKey := getBlockForKey_key hfind
      simp [Function.comp, hbk, ContentBlock.getText, styleLoop_text hcs]
    · have hbk : b0.key = k := getBlockForKey_key hfind
      have hne : ¬(b0.key = selection.getStartKey) := by
        rw [hbk]
        exact hk
      simp [Function.comp, hne]

end DraftInline

namespace DraftInline

/-! ## Invariants of the reconciliation fold -/

theorem getText_length (b : ContentBlock) : b.getText.length = b.chars.length := by
  simp [ContentBlock.getText]

theorem exists_block_of_textAt {a content : ContentState} {k : String}
    {block : ContentBlock}
    (ht : textAt a k = textAt content k)
    (hb : getBlockForKey content k = some block) :
    ∃ block', getBlockForKey a k = some block' ∧ block'.getText = block.getText := by
  unfold textAt at ht
  rw [hb] at ht
  cases hfa : getBlockForKey a k with
  | none => rw [hfa] at ht; cases ht
  | some b' =>
    rw [hfa] at ht
    simp only [Option.map_some', Option.some.injEq] at ht
    exact ⟨b', rfl, ht⟩

theorem limitSelection_bounds (change : StyleChange) (block : ContentBlock) :
    (limitSelection (createSelectionForChange change) block).getStartKey = change.blockKey ∧
    0 ≤ (limitSelection (createSelectionForChange change) block).getStartOffset ∧
    (limitSelection (createSelectionForChange change) block).getEndOffset ≤
      (block.chars.length : Int) := by
  refine ⟨rfl, ?_, ?_⟩
  · simp only [limitSelection, createSelectionForChange, SelectionState.createEmpty,
      SelectionState.getStartOffset]
    exact le_max_right _ _
  · simp only [limitSelection, createSelectionForChange, SelectionState.createEmpty,
      SelectionState.getEndOffset, SelectionState.getStartOffset]
    exact le_trans (min_le_left _ _) (le_of_eq (by simp [ContentBlock.getText]))

theorem applyInlineStyles_fold_aux (content : ContentState)
    (selection : SelectionState) (styles : List Style) (block : ContentBlock)
    (hb : getBlockForKey content selection.getStartKey = some block)
    (he : selection.getEndOffset ≤ (block.chars.length : Int)) :
    ∀ (l : List Style) (a : ContentState) (n : Nat),
      a.map (fun b => b.key) = content.map (fun b => b.key) →
      (∀ k, textAt a k = textAt content k) →
      ∃ r, l.foldlM (applyInlineStylesStep content selection styles) (a, n) = .ok r ∧
        r.1.map (fun b => b.key) = content.map (fun b => b.key) ∧
        (∀ k, textAt r.1 k = textAt content k) := by
  intro l
  induction l with
  | nil => intro a n hk ht; exact ⟨(a, n), rfl, hk, ht⟩
  | cons st tl ih =>
    intro a n hk ht
    obtain ⟨block', hb', htext⟩ := exists_block_of_textAt (ht selection.getStartKey) hb
    have hlen : block'.chars.length = block.chars.length := by
      have := congrArg List.length htext
      simpa [ContentBlock.getText] using this
    obtain ⟨c2, hc2⟩ := modifier_ok a selection st block' hb' (by rw [hlen]; exact he)
    have hkeys2 : c2.map (fun b => b.key) = content.map (fun b => b.key) :=
      (modifier_keys hc2).trans hk
    have htext2 : ∀ k, textAt c2 k = textAt content k :=
      fun k => (modifier_textAt hc2 k).trans (ht k)
    rw [List.foldlM_cons]
    cases hstep : applyInlineStylesStep content selection styles (a, n) st with
    | error e =>
      exfalso
      unfold applyInlineStylesStep at hstep
      rw [hb] at hstep
      simp only [exceptBind_ok, exceptPure] at hstep
      rw [hc2] at hstep
      simp only [exceptBind_ok, exceptPure] at hstep
      exact Except.noConfusion hstep
    | ok acc =>
      unfold applyInlineStylesStep at hstep
      rw [hb] at hstep
      simp only [exceptBind_ok, exceptPure] at hstep
      rw [hc2] at hstep
      simp only [exceptBind_ok, exceptPure, Except.ok.injEq] at hstep
      subst hstep
      simpa only [exceptBind_ok] using ih c2 _ hkeys2 htext2

theorem applyChangesCore_fold_aux :
    ∀ (l : List StyleChange) (a : ContentState) (n : Nat) (content : ContentState),
      a.map (fun b => b.key) = content.map (fun b => b.key) →
      (∀ k, textAt a k = textAt content k) →
      (∀ ch ∈ l, ch.blockKey ∈ content.map (fun b => b.key)) →
      ∃ r, l.foldlM applyChangesStep (a, n) = .ok r ∧
        r.1.map (fun b => b.key) = content.map (fun b => b.key) ∧
        (∀ k, textAt r.1 k = textAt content k) := by
  intro l
  induction l with
  | nil => intro a n content hk ht _; exact ⟨(a, n), rfl, hk, ht⟩
  | cons ch tl ih =>
    intro a n content hkeys htext hmem
    have hkmem : ch.blockKey ∈ a.map (fun b => b.key) := by
      rw [hkeys]
      exact hmem ch (List.mem_cons_self ch tl)
    obtain ⟨block, hblock⟩ := getBlockForKey_isSome hkmem
    have hsk : (limitSelection (createSelectionForChange ch) block).getStartKey
        = ch.blockKey := (limitSelection_bounds ch block).1
    have hse := (limitSelection_bounds ch block).2.2
    obtain ⟨r1, hr1, hr1k, hr1t⟩ := applyInlineStyles_fold_aux a
      (limitSelection (createSelectionForChange ch) block) ch.styles block
      (by rw [hsk]; exact hblock) hse ch.styles a n rfl (fun _ => rfl)
    rw [List.foldlM_cons]
    have hstep : applyChangesStep (a, n) ch = .ok r1 := by
      unfold applyChangesStep
      rw [hblock]
      simp only [exceptBind_ok, exceptPure]
      exact hr1
    rw [hstep]
    simp only [exceptBind_ok]
    obtain ⟨r, hr, hrk, hrt⟩ := ih r1.1 r1.2 content
      (hr1k.trans hkeys)
      (fun k => (hr1t k).trans (htext k))
      (fun ch' hch' => hmem ch' (List.mem_cons_of_mem ch hch'))
    exact ⟨r, hr, hrk, hrt⟩

theorem applyChangesCore_ok (changes : List StyleChange) (content : ContentState)
    (hmem : ∀ ch ∈ changes, ch.blockKey ∈ content.map (fun b => b.key)) :
    ∃ r, applyChangesCore changes content = .ok r ∧
      r.1.map (fun b => b.key) = content.map (fun b => b.key) ∧
      (∀ k, textAt r.1 k = textAt content k) :=
  applyChangesCore_fold_aux changes content 0 content rfl (fun _ => rfl) hmem

/-! ## Characterizing the collection pass -/

theorem getChanges_ok_aux (d : InlineStyleDecorator) :
    ∀ (l : List ContentBlock) (acc : List StyleChange),
      (∀ b ∈ l, ∃ ps, d.strategy b = .ok ps) →
      l.foldlM (getChangesStep d) acc =
        .ok (acc ++ l.flatMap (fun b => (reportedPairs d b).map (mkChange d b))) := by
  intro l
  induction l with
  | nil => intro acc _; simp [exceptPure]
  | cons b tl ih =>
    intro acc h
    obtain ⟨ps, hps⟩ := h b (List.mem_cons_self b tl)
    have hrep : reportedPairs d b = ps := by
      simp [reportedPairs, hps, Except.toOption]
    rw [List.foldlM_cons]
    have hstep : getChangesStep d acc b = .ok (acc ++ ps.map (mkChange d b)) := by
      unfold getChangesStep
      rw [hps]
      simp [exceptPure, exceptBind_ok, mkChange]
    rw [hstep]
    simp only [exceptBind_ok]
    rw [ih _ (fun b' hb' => h b' (List.mem_cons_of_mem b hb'))]
    simp [List.flatMap_cons, List.append_assoc, hrep]

theorem collectAll_ok (decorators : List InlineStyleDecorator) (state : EditorState)
    (hok : ∀ d ∈ decorators, ∀ b ∈ state.currentContent, ∃ ps, d.strategy b = .ok ps) :
    collectAll decorators state = .ok (collectSpec decorators state.currentContent) := by
  unfold collectAll collectSpec
  suffices hgen : ∀ (l : List InlineStyleDecorator) (acc : List StyleChange),
      (∀ d ∈ l, ∀ b ∈ state.currentContent, ∃ ps, d.strategy b = .ok ps) →
      l.foldlM (collectStep state) acc =
        .ok (acc ++ l.flatMap (fun d => state.currentContent.flatMap
          (fun b => (reportedPairs d b).map (mkChange d b)))) by
    simpa using hgen decorators [] hok
  intro l
  induction l with
  | nil => intro acc _; simp [exceptPure]
  | cons d tl ih =>
    intro acc h
    rw [List.foldlM_cons]
    have hd := getChanges_ok_aux d state.currentContent []
      (h d (List.mem_cons_self d tl))
    have hstep : collectStep state acc d = .ok (acc ++ state.currentContent.flatMap
        (fun b => (reportedPairs d b).map (mkChange d b))) := by
      unfold collectStep getChangesToApplyForState
      rw [hd]
      simp [exceptBind_ok, exceptPure]
    rw [hstep]
    simp only [exceptBind_ok]
    rw [ih _ (fun d' hd' => h d' (List.mem_cons_of_mem d hd'))]
    simp [List.flatMap_cons, List.append_assoc]

theorem collectSpec_keys (decorators : List InlineStyleDecorator)
    (blocks : List ContentBlock) :
    ∀ ch ∈ collectSpec decorators blocks, ch.blockKey ∈ blocks.map (fun b => b.key) := by
  intro ch hch
  unfold collectSpec at hch
  rcases List.mem_flatMap.mp hch with ⟨d, _, hch2⟩
  rcases List.mem_flatMap.mp hch2 with ⟨b, hb, hch3⟩
  rcases List.mem_map.mp hch3 with ⟨p, _, rfl⟩
  exact List.mem_map.mpr ⟨b, hb, rfl⟩

end DraftInline

namespace DraftInline

/-! ## C3: clamping and absence of bounds errors -/

/-- C3, counterexample: `limitSelection` clamps only the anchor to `≥ 0` and
the focus to `≤` text length; a reported start beyond the text length is not
pulled back, so the clamped selection's offsets do *not* always lie within
`[0, block text length]`: with text length 2 and a reported range `(5, 7)`
the clamped anchor stays 5. -/
theorem c3_counterexample :
    (limitSelection (createSelectionForChange c3exChange) c3exBlock).getStartOffset = 5 ∧
      (c3exBlock.getText.length : Int) = 2 ∧
      ¬((limitSelection (createSelectionForChange c3exChange) c3exBlock).getStartOffset ≤
        (c3exBlock.getText.length : Int)) := by
  refine ⟨by decide, by decide, by decide⟩

/-- C3 (amended): after clamping, the anchor offset is `≥ 0` and the focus
offset is `≤` the block text length (the anchor may still exceed the text
length when a matcher reports a start beyond it, in which case the range is
empty), and a reconciliation pass never raises a bounds error regardless of
the offsets matchers report: whenever every strategy returns normally the
whole pass returns normally. -/
theorem c3_clamp_no_bounds_error :
    (∀ (change : StyleChange) (block : ContentBlock),
      0 ≤ (limitSelection (createSelectionForChange change) block).getStartOffset ∧
      (limitSelection (createSelectionForChange change) block).getEndOffset ≤
        (block.getText.length : Int)) ∧
    (∀ (decorators : List InlineStyleDecorator) (state : EditorState),
      (∀ d ∈ decorators, ∀ b ∈ state.currentContent, ∃ ps, d.strategy b = .ok ps) →
      ∃ out, syncExecuteStrategies decorators state = .ok out) := by
  constructor
  · intro change block
    refine ⟨(limitSelection_bounds change block).2.1, ?_⟩
    have h := (limitSelection_bounds change block).2.2
    rwa [show ((block.getText.length : Int)) = (block.chars.length : Int) by
      simp [ContentBlock.getText]]
  · intro decorators state hok
    have hc := collectAll_ok decorators state hok
    obtain ⟨r, hr, _, _⟩ := applyChangesCore_ok
      (collectSpec decorators state.currentContent)
      state.currentContent (collectSpec_keys decorators state.currentContent)
    unfold syncExecuteStrategies
    rw [hc]
    simp only [exceptBind_ok]
    unfold applyChangesToState
    obtain ⟨c, n⟩ := r
    rw [hr]
    simp only [exceptBind_ok, exceptPure]
    exact ⟨_, rfl⟩

theorem c3_clamp_witness :
    (0 ≤ (limitSelection (createSelectionForChange c3exChange) c3exBlock).getStartOffset ∧
      (limitSelection (createSelectionForChange c3exChange) c3exBlock).getEndOffset ≤
        (c3exBlock.getText.length : Int)) ∧
    ∃ out, syncExecuteStrategies [exWildDecorator] c3exState = .ok out :=
  ⟨c3_clamp_no_bounds_error.1 c3exChange c3exBlock,
    c3_clamp_no_bounds_error.2 [exWildDecorator] c3exState
      (by
        intro d hd b _
        rcases List.mem_singleton.mp hd with rfl
        exact ⟨[(-10, 50), (5, -3)], rfl⟩)⟩

/-! ## C5: the strip operation -/

theorem eq_of_mem_of_nodup_keys {c : ContentState}
    (hnod : (c.map (fun b => b.key)).Nodup)
    {a b : ContentBlock} (ha : a ∈ c) (hb : b ∈ c) (hk : a.key = b.key) : a = b :=
  List.inj_on_of_nodup_map hnod ha hb hk

theorem stripBlock_key (b : ContentBlock) : (stripBlock b).key = b.key := rfl

theorem stripBlock_getText (b : ContentBlock) : (stripBlock b).getText = b.getText := by
  simp [stripBlock, ContentBlock.getText, List.map_map, Function.comp]

theorem stripStep_shape (cs : ContentState) (bk : ContentBlock)
    (hint : ∀ a ∈ cs, a.key = bk.key → a.chars = bk.chars) :
    stripStep cs bk = cs.map (fun a => if a.key = bk.key then stripBlock a else a) := by
  unfold stripStep modifierReplaceText
  apply List.map_congr_left
  intro a ha
  by_cases hk : a.key = bk.key
  · have hchars := hint a ha hk
    have hkey : (a.key == (({ SelectionState.createEmpty bk.key with
        anchorOffset := 0,
        focusOffset := (bk.getText.length : Int) } : SelectionState)).getStartKey) = true := by
      simp [SelectionState.getStartKey, SelectionState.createEmpty, hk]
    rw [if_pos hkey, if_pos hk]
    show ({ a with chars := a.chars.take ((0 : Int).toNat)
        ++ bk.getText.map (fun c => { ch := c, style := [] })
        ++ a.chars.drop (max (bk.getText.length : Int) 0).toNat } : ContentBlock)
      = stripBlock a
    have hmax : (max (bk.getText.length : Int) 0).toNat = bk.chars.length := by
      rw [max_eq_left (Int.natCast_nonneg _)]
      simp [ContentBlock.getText]
    rw [hmax, hchars, List.drop_length]
    have htext : a.getText = bk.getText := by
      simp [ContentBlock.getText, hchars]
    simp [stripBlock, htext]
  · have hkey : (a.key == (({ SelectionState.createEmpty bk.key with
        anchorOffset := 0,
        focusOffset := (bk.getText.length : Int) } : SelectionState)).getStartKey) = false := by
      simp [SelectionState.getStartKey, SelectionState.createEmpty, hk]
    rw [if_neg (by simp [hkey]), if_neg hk]

theorem strip_fold (l : List ContentBlock) :
    ∀ (acc : ContentState),
      (l.map (fun b => b.key)).Nodup →
      (∀ b ∈ l, ∀ a ∈ acc, a.key = b.key → a.chars = b.chars) →
      l.foldl stripStep acc =
        acc.map (fun a => if a.key ∈ l.map (fun b => b.key) then stripBlock a else a) := by
  induction l with
  | nil =>
    intro acc _ _
    simp
  | cons bk tl ih =>
    intro acc hnod hint
    have hnod' := hnod
    rw [List.map_cons, List.nodup_cons] at hnod'
    have hbk_not_tl : bk.key ∉ tl.map (fun b => b.key) := hnod'.1
    have htl_nodup : (tl.map (fun b => b.key)).Nodup := hnod'.2
    rw [List.foldl_cons,
      stripStep_shape acc bk (hint bk (List.mem_cons_self bk tl))]
    rw [ih _ htl_nodup ?hint2]
    case hint2 =>
      intro b hb a ha hk
      rcases List.mem_map.mp ha with ⟨a0, ha0, rfl⟩
      by_cases hk0 : a0.key = bk.key
      · exfalso
        rw [if_pos hk0] at hk
        rw [stripBlock_key] at hk
        exact hbk_not_tl (by
          rw [← hk0, hk]
          exact List.mem_map.mpr ⟨b, hb, rfl⟩)
      · rw [if_neg hk0] at hk ⊢
        exact hint b (List.mem_cons_of_mem bk hb) a0 ha0 hk
    rw [List.map_map]
    apply List.map_congr_left
    intro a _
    simp only [Function.comp]
    by_cases hk : a.key = bk.key
    · rw [if_pos hk, stripBlock_key]
      have h1 : a.key ∉ tl.map (fun b => b.key) := hk ▸ hbk_not_tl
      rw [if_neg h1]
      have h2 : a.key ∈ (bk :: tl).map (fun b => b.key) := by
        simp [hk]
      rw [if_pos h2]
    · rw [if_neg hk]
      by_cases h2 : a.key ∈ tl.map (fun b => b.key)
      · rw [if_pos h2, if_pos (by simp [h2])]
      · rw [if_neg h2, if_neg (by simp [hk, h2])]

theorem stripStyles_characterization (state : EditorState)
    (hnod : (state.currentContent.map (fun b => b.key)).Nodup) :
    (stripStyles state).currentContent = state.currentContent.map stripBlock ∧
    (stripStyles state).selection = state.selection := by
  constructor
  · show state.currentContent.foldl stripStep state.currentContent = _
    rw [strip_fold state.currentContent state.currentContent hnod
      (fun b hb a ha hk => by rw [eq_of_mem_of_nodup_keys hnod ha hb hk])]
    apply List.map_congr_left
    intro a ha
    rw [if_pos (List.mem_map.mpr ⟨a, ha, rfl⟩)]
  · rfl

/-- C5: the strip operation produces a document version in which every
character of every block carries an empty inline style set while each
block's key and text are unchanged, and in the guard's strip path exactly
that version is what the `onNeedsStrip` continuation receives. -/
theorem c5_strip_unstyles (state : EditorState)
    (hnod : (state.currentContent.map (fun b => b.key)).Nodup) :
    (∀ b ∈ (stripStyles state).currentContent, ∀ cm ∈ b.chars, cm.style = []) ∧
    (stripStyles state).currentContent.map (fun b => (b.key, b.getText)) =
      state.currentContent.map (fun b => (b.key, b.getText)) ∧
    (∀ sty,
      (EditorState.forceSelection state state.selection).getCurrentInlineStyle = .ok sty →
      sty.length > 0 →
      checkIfWeNeedToStripStyles state = .ok (true, [stripStyles state])) := by
  obtain ⟨hcontent, _⟩ := stripStyles_characterization state hnod
  refine ⟨?_, ?_, ?_⟩
  · intro b hb cm hcm
    rw [hcontent] at hb
    rcases List.mem_map.mp hb with ⟨a, _, rfl⟩
    simp only [stripBlock] at hcm
    rcases List.mem_map.mp hcm with ⟨c, _, rfl⟩
    rfl
  · rw [hcontent, List.map_map]
    apply List.map_congr_left
    intro a _
    simp [Function.comp, stripBlock_key, stripBlock_getText]
  · intro sty h hl
    unfold checkIfWeNeedToStripStyles
    simp only [h, exceptBind_ok]
    simp [hl, exceptPure]

theorem c5_strip_witness :
    checkIfWeNeedToStripStyles exStyledState = .ok (true, [stripStyles exStyledState]) ∧
      (stripStyles exStyledState).currentContent.map (fun b => (b.key, b.getText)) =
        exStyledState.currentContent.map (fun b => (b.key, b.getText)) := by
  have h := c5_strip_unstyles exStyledState (by decide)
  exact ⟨h.2.2 ["X"] (by decide) (by decide), h.2.1⟩

end DraftInline

namespace DraftInline

/-! ## Per-character characterization of style application -/

theorem styleLoopGo_getElem (st : Style) :
    ∀ (n : Nat) (chars : List CharMeta) (i : Nat) (cs : List CharMeta),
      styleLoopGo st n chars i = .ok cs →
      ∀ j, cs[j]? = if i ≤ j ∧ j < i + n
        then chars[j]?.map (applyStyleChar st) else chars[j]? := by
  intro n
  induction n with
  | zero =>
    intro chars i cs h j
    cases h
    rw [if_neg (by omega)]
  | succ m ih =>
    intro chars i cs h j
    unfold styleLoopGo at h
    cases hg : chars[i]? with
    | none => rw [hg] at h; cases h
    | some c =>
      rw [hg] at h
      have hi : i < chars.length := by
        by_contra hge
        rw [List.getElem?_eq_none (by omega)] at hg
        cases hg
      have hrec := ih _ _ _ h
      by_cases hj : j = i
      · subst hj
        rw [hrec j]
        rw [if_neg (by omega), if_pos (by omega)]
        rw [List.getElem?_set_self hi, hg]
        rfl
      · rw [hrec j]
        rw [List.getElem?_set_ne (by omega)]
        by_cases hcond : i ≤ j ∧ j < i + (m + 1)
        · rw [if_pos (by omega), if_pos hcond]
        · rw [if_neg (by omega), if_neg hcond]

theorem styleLoop_getElem {st : Style} {chars : List CharMeta} {i : Nat} {e : Int}
    {cs : List CharMeta} (h : styleLoop st chars i e = .ok cs) (j : Nat) :
    cs[j]? = if i ≤ j ∧ (j : Int) < e
      then chars[j]?.map (applyStyleChar st) else chars[j]? := by
  unfold styleLoop at h
  have hgo := styleLoopGo_getElem st _ chars i cs h j
  by_cases hcond : i ≤ j ∧ (j : Int) < e
  · rw [if_pos (by omega)] at hgo
    rw [if_pos hcond]
    exact hgo
  · rw [if_neg (by omega)] at hgo
    rw [if_neg hcond]
    exact hgo

theorem modifier_charAt {content : ContentState} {selection : SelectionState}
    {st : Style} {c' : ContentState}
    (h : modifierApplyInlineStyle content selection st = .ok c') (k : String) (i : Nat) :
    charAt c' k i = if k = selection.getStartKey ∧
        selection.getStartOffset.toNat ≤ i ∧ (i : Int) < selection.getEndOffset
      then (charAt content k i).map (applyStyleChar st) else charAt content k i := by
  obtain ⟨block, cs, hb, hcs, rfl⟩ := modifier_spec h
  unfold charAt
  rw [find?_map_keyPreserving (by
    intro b
    by_cases hk : b.key == selection.getStartKey <;> simp [hk])]
  by_cases hk : k = selection.getStartKey
  · subst hk
    rw [hb]
    have hbk : block.key = selection.getStartKey := getBlockForKey_key hb
    simp only [Option.map_some', Option.some_bind]
    rw [if_pos (by simp [hbk])]
    show cs[i]? = _
    rw [styleLoop_getElem hcs i]
    by_cases hcond : selection.getStartOffset.toNat ≤ i ∧ (i : Int) < selection.getEndOffset
    · rw [if_pos hcond]
      rw [if_pos ⟨trivial, hcond⟩]
    · rw [if_neg hcond]
      rw [if_neg (by tauto)]
  · have hrw : ∀ b0 : ContentBlock, b0.key = k →
        (if b0.key == selection.getStartKey then { b0 with chars := cs } else b0) = b0 := by
      intro b0 hb0
      rw [if_neg (by simp [hb0, hk])]
    rw [if_neg (by tauto)]
    cases hfind : getBlockForKey content k with
    | none => rfl
    | some b0 =>
      simp only [Option.map_some', Option.some_bind]
      rw [hrw b0 (getBlockForKey_key hfind)]

end DraftInline

namespace DraftInline

theorem limitSelection_getStartKey (ch : StyleChange) (block : ContentBlock) :
    (limitSelection (createSelectionForChange ch) block).getStartKey = ch.blockKey := rfl

theorem limitSelection_getStartOffset (ch : StyleChange) (block : ContentBlock) :
    (limitSelection (createSelectionForChange ch) block).getStartOffset
      = max ch.start 0 := rfl

theorem limitSelection_getEndOffset (ch : StyleChange) (block : ContentBlock) :
    (limitSelection (createSelectionForChange ch) block).getEndOffset
      = min (block.getText.length : Int) ch.«end» := rfl

theorem coversB_iff {ch : StyleChange} {len : Nat} {k : String} {i : Nat} :
    coversB ch len k i = true ↔
      (ch.blockKey = k ∧ max ch.start 0 ≤ (i : Int) ∧
        (i : Int) < min (len : Int) ch.«end») := by
  simp [coversB]
  tauto

theorem reconcileChar_cons (ch : StyleChange) (tl : List StyleChange)
    (len : Nat) (k : String) (i : Nat) (cm : CharMeta) :
    reconcileChar (ch :: tl) len k i cm =
      reconcileChar tl len k i (if coversB ch len k i then applyAll ch.styles cm else cm) := rfl

theorem lenAt_eq_of_textAt {c c' : ContentState} {k : String}
    (h : textAt c' k = textAt c k) : lenAt c' k = lenAt c k := by
  unfold textAt at h
  unfold lenAt
  cases h1 : getBlockForKey c' k with
  | none =>
    rw [h1] at h
    cases h2 : getBlockForKey c k with
    | none => rfl
    | some b => rw [h2] at h; cases h
  | some b' =>
    rw [h1] at h
    cases h2 : getBlockForKey c k with
    | none => rw [h2] at h; cases h
    | some b =>
      rw [h2] at h
      simp only [Option.map_some', Option.some.injEq] at h
      simp only [Option.map_some', Option.getD_some]
      have := congrArg List.length h
      simpa [ContentBlock.getText] using this

theorem getBlockForKey_self {c : ContentState}
    (hnod : (c.map (fun b => b.key)).Nodup) {b : ContentBlock} (hb : b ∈ c) :
    getBlockForKey c b.key = some b := by
  obtain ⟨f, hf⟩ := getBlockForKey_isSome (List.mem_map.mpr ⟨b, hb, rfl⟩)
  rw [hf]
  congr 1
  exact eq_of_mem_of_nodup_keys hnod (getBlockForKey_mem hf) hb (getBlockForKey_key hf)

theorem applyInlineStylesStep_spec {content : ContentState} {selection : SelectionState}
    {styles : List Style} {a : ContentState} {n : Nat} {st : Style}
    {r : ContentState × Nat}
    (h : applyInlineStylesStep content selection styles (a, n) st = .ok r) :
    ∃ block c2, getBlockForKey content selection.getStartKey = some block ∧
      modifierApplyInlineStyle a selection st = .ok c2 ∧
      r = (c2, if (sliceJs block.chars selection.getStartOffset
            selection.getEndOffset).map (fun c => c.style) =
          List.replicate ((sliceJs block.chars selection.getStartOffset
            selection.getEndOffset).map (fun c => c.style)).length styles
        then n else n + 1) := by
  unfold applyInlineStylesStep at h
  cases hb : getBlockForKey content selection.getStartKey with
  | none => rw [hb] at h; cases h
  | some block =>
    rw [hb] at h
    simp only [exceptBind_ok, exceptPure] at h
    cases hmod : modifierApplyInlineStyle a selection st with
    | error e => rw [hmod] at h; cases h
    | ok c2 =>
      rw [hmod] at h
      simp only [exceptBind_ok, exceptPure, Except.ok.injEq] at h
      exact ⟨block, c2, rfl, rfl, h.symm⟩

theorem applyChangesStep_spec {a : ContentState} {n : Nat} {ch : StyleChange}
    {r : ContentState × Nat} (h : applyChangesStep (a, n) ch = .ok r) :
    ∃ block, getBlockForKey a ch.blockKey = some block ∧
      applyInlineStyles a (limitSelection (createSelectionForChange ch) block)
        ch.styles n = .ok r := by
  unfold applyChangesStep at h
  cases hb : getBlockForKey a ch.blockKey with
  | none => rw [hb] at h; cases h
  | some block =>
    rw [hb] at h
    simp only [exceptBind_ok, exceptPure] at h
    exact ⟨block, rfl, h⟩

theorem applyInlineStyles_preserves {content0 : ContentState}
    {selection : SelectionState} {styles : List Style} :
    ∀ (l : List Style) (a : ContentState) (n : Nat) (r : ContentState × Nat),
      l.foldlM (applyInlineStylesStep content0 selection styles) (a, n) = .ok r →
      r.1.map (fun b => b.key) = a.map (fun b => b.key) ∧
        (∀ k, textAt r.1 k = textAt a k) := by
  intro l
  induction l with
  | nil =>
    intro a n r h
    simp only [List.foldlM_nil] at h
    cases h
    exact ⟨rfl, fun _ => rfl⟩
  | cons st tl ih =>
    intro a n r h
    rw [List.foldlM_cons] at h
    cases hstep : applyInlineStylesStep content0 selection styles (a, n) st with
    | error e => rw [hstep] at h; cases h
    | ok acc =>
      rw [hstep] at h
      simp only [exceptBind_ok] at h
      obtain ⟨block, c2, hb, hmod, hacc⟩ := applyInlineStylesStep_spec hstep
      subst hacc
      have hrec := ih c2 _ r h
      exact ⟨hrec.1.trans (modifier_keys hmod),
        fun k => (hrec.2 k).trans (modifier_textAt hmod k)⟩

theorem applyInlineStyles_charAt {content0 : ContentState}
    {selection : SelectionState} {styles : List Style} :
    ∀ (l : List Style) (a : ContentState) (n : Nat) (r : ContentState × Nat),
      l.foldlM (applyInlineStylesStep content0 selection styles) (a, n) = .ok r →
      ∀ (k : String) (i : Nat),
      charAt r.1 k i = if k = selection.getStartKey ∧
          selection.getStartOffset.toNat ≤ i ∧ (i : Int) < selection.getEndOffset
        then (charAt a k i).map (applyAll l) else charAt a k i := by
  intro l
  induction l with
  | nil =>
    intro a n r h k i
    simp only [List.foldlM_nil] at h
    cases h
    by_cases hcond : k = selection.getStartKey ∧
        selection.getStartOffset.toNat ≤ i ∧ (i : Int) < selection.getEndOffset
    · rw [if_pos hcond]
      show charAt a k i = (charAt a k i).map (fun cm => cm)
      rw [Option.map_id']
    · rw [if_neg hcond]
  | cons st tl ih =>
    intro a n r h k i
    rw [List.foldlM_cons] at h
    cases hstep : applyInlineStylesStep content0 selection styles (a, n) st with
    | error e => rw [hstep] at h; cases h
    | ok acc =>
      rw [hstep] at h
      simp only [exceptBind_ok] at h
      obtain ⟨block, c2, hb, hmod, hacc⟩ := applyInlineStylesStep_spec hstep
      subst hacc
      have hrec := ih c2 _ r h k i
      by_cases hcond : k = selection.getStartKey ∧
          selection.getStartOffset.toNat ≤ i ∧ (i : Int) < selection.getEndOffset
      · rw [hrec, if_pos hcond, modifier_charAt hmod k i, if_pos hcond, if_pos hcond,
          Option.map_map]
        rfl
      · rw [hrec, if_neg hcond, modifier_charAt hmod k i, if_neg hcond, if_neg hcond]

end DraftInline

namespace DraftInline

theorem optionMap_congr {α β : Type} {o : Option α} {f g : α → β}
    (h : ∀ a, f a = g a) : o.map f = o.map g := by
  cases o <;> simp [h]

theorem applyChangesCore_charAt_fold :
    ∀ (l : List StyleChange) (a : ContentState) (n : Nat) (r : ContentState × Nat),
      l.foldlM applyChangesStep (a, n) = .ok r →
      ∀ (k : String) (i : Nat),
      charAt r.1 k i = (charAt a k i).map (reconcileChar l (lenAt a k) k i) := by
  intro l
  induction l with
  | nil =>
    intro a n r h k i
    simp only [List.foldlM_nil] at h
    cases h
    show charAt a k i = (charAt a k i).map (fun cm => cm)
    rw [Option.map_id']
  | cons ch tl ih =>
    intro a n r h k i
    rw [List.foldlM_cons] at h
    cases hstep : applyChangesStep (a, n) ch with
    | error e => rw [hstep] at h; cases h
    | ok acc =>
      rw [hstep] at h
      simp only [exceptBind_ok] at h
      obtain ⟨block, hb, happly⟩ := applyChangesStep_spec hstep
      obtain ⟨a1, n1⟩ := acc
      have hinner := applyInlineStyles_charAt ch.styles a n (a1, n1) happly k i
      have hpres := applyInlineStyles_preserves ch.styles a n (a1, n1) happly
      have hlen : lenAt a1 k = lenAt a k := lenAt_eq_of_textAt (hpres.2 k)
      have hrec := ih a1 n1 r h k i
      simp only at hinner hrec
      rw [hrec, hlen, hinner]
      by_cases hck : ch.blockKey = k
      · have hbk : lenAt a k = block.chars.length := by
          unfold lenAt
          rw [← hck, hb]
          rfl
        have hcond_iff : (k = (limitSelection (createSelectionForChange ch) block).getStartKey ∧
            (limitSelection (createSelectionForChange ch) block).getStartOffset.toNat ≤ i ∧
            (i : Int) < (limitSelection (createSelectionForChange ch) block).getEndOffset)
            ↔ coversB ch (lenAt a k) k i = true := by
          rw [coversB_iff, hbk, limitSelection_getStartKey, limitSelection_getStartOffset,
            limitSelection_getEndOffset, getText_length]
          constructor
          · rintro ⟨h1, h2, h3⟩
            exact ⟨h1.symm, by omega, h3⟩
          · rintro ⟨h1, h2, h3⟩
            exact ⟨h1.symm, by omega, h3⟩
        by_cases hcov : coversB ch (lenAt a k) k i = true
        · rw [if_pos (hcond_iff.mpr hcov), Option.map_map]
          apply optionMap_congr
          intro cm
          show reconcileChar tl (lenAt a k) k i (applyAll ch.styles cm) = _
          rw [reconcileChar_cons, if_pos hcov]
        · rw [if_neg (fun hc => hcov (hcond_iff.mp hc))]
          apply optionMap_congr
          intro cm
          rw [reconcileChar_cons, if_neg hcov]
      · have hcovf : coversB ch (lenAt a k) k i = false := by
          simp [coversB, hck]
        rw [if_neg (by
          rw [limitSelection_getStartKey]
          rintro ⟨h1, _⟩
          exact hck h1.symm)]
        apply optionMap_congr
        intro cm
        rw [reconcileChar_cons, if_neg (by simp [hcovf])]

theorem applyChangesCore_charAt {changes : List StyleChange} {content : ContentState}
    {r : ContentState × Nat} (h : applyChangesCore changes content = .ok r)
    (k : String) (i : Nat) :
    charAt r.1 k i = (charAt content k i).map (reconcileChar changes (lenAt content k) k i) :=
  applyChangesCore_charAt_fold changes content 0 r h k i

theorem reconcileChar_mem_mono {changes : List StyleChange} {len : Nat} {k : String}
    {i : Nat} {cm : CharMeta} {x : Style} (hx : x ∈ cm.style) :
    x ∈ (reconcileChar changes len k i cm).style := by
  induction changes generalizing cm with
  | nil => exact hx
  | cons ch tl ih =>
    rw [reconcileChar_cons]
    by_cases hcov : coversB ch len k i = true
    · rw [if_pos hcov]
      exact ih (by
        rw [(applyAll_style ch.styles cm).1]
        exact mem_insertAll_of_mem hx)
    · rw [if_neg hcov]
      exact ih hx

theorem reconcileChar_mem_of_cover {changes : List StyleChange} {len : Nat}
    {k : String} {i : Nat} {cm : CharMeta} {ch : StyleChange} {st : Style}
    (hch : ch ∈ changes) (hcov : coversB ch len k i = true) (hst : st ∈ ch.styles) :
    st ∈ (reconcileChar changes len k i cm).style := by
  induction changes generalizing cm with
  | nil => cases hch
  | cons ch0 tl ih =>
    rw [reconcileChar_cons]
    rcases List.mem_cons.mp hch with rfl | hch'
    · rw [if_pos hcov]
      exact reconcileChar_mem_mono (by
        rw [(applyAll_style ch.styles cm).1]
        exact mem_insertAll_left hst)
    · by_cases hcov0 : coversB ch0 len k i = true
      · rw [if_pos hcov0]
        exact ih hch'
      · rw [if_neg hcov0]
        exact ih hch'

theorem mkChange_mem_collectSpec {decorators : List InlineStyleDecorator}
    {blocks : List ContentBlock} {d : InlineStyleDecorator} {b : ContentBlock}
    {p : Int × Int} (hd : d ∈ decorators) (hb : b ∈ blocks)
    (hp : p ∈ reportedPairs d b) :
    mkChange d b p ∈ collectSpec decorators blocks :=
  List.mem_flatMap.mpr ⟨d, hd, List.mem_flatMap.mpr ⟨b, hb,
    List.mem_map.mpr ⟨p, hp, rfl⟩⟩⟩

theorem mem_collectSpec {decorators : List InlineStyleDecorator}
    {blocks : List ContentBlock} {ch : StyleChange}
    (h : ch ∈ collectSpec decorators blocks) :
    ∃ d ∈ decorators, ∃ b ∈ blocks, ∃ p ∈ reportedPairs d b, ch = mkChange d b p := by
  unfold collectSpec at h
  rcases List.mem_flatMap.mp h with ⟨d, hd, h2⟩
  rcases List.mem_flatMap.mp h2 with ⟨b, hb, h3⟩
  rcases List.mem_map.mp h3 with ⟨p, hp, rfl⟩
  exact ⟨d, hd, b, hb, p, hp, rfl⟩

end DraftInline

namespace DraftInline

/-! ## Counter monotonicity and no-op passes -/

theorem foldlM_counter_le {α β : Type} (f : α × Nat → β → Except JsError (α × Nat))
    (hf : ∀ a n b r, f (a, n) b = .ok r → n ≤ r.2) :
    ∀ (l : List β) (a : α) (n : Nat) (r : α × Nat),
      l.foldlM f (a, n) = .ok r → n ≤ r.2 := by
  intro l
  induction l with
  | nil =>
    intro a n r h
    simp only [List.foldlM_nil] at h
    cases h
    exact le_refl n
  | cons hd tl ih =>
    intro a n r h
    rw [List.foldlM_cons] at h
    cases hstep : f (a, n) hd with
    | error e => rw [hstep] at h; cases h
    | ok acc =>
      rw [hstep] at h
      simp only [exceptBind_ok] at h
      obtain ⟨a1, n1⟩ := acc
      exact le_trans (hf a n hd (a1, n1) hstep) (ih a1 n1 r h)

theorem applyInlineStylesStep_le {content : ContentState} {selection : SelectionState}
    {styles : List Style} {a : ContentState} {n : Nat} {st : Style}
    {r : ContentState × Nat}
    (h : applyInlineStylesStep content selection styles (a, n) st = .ok r) : n ≤ r.2 := by
  obtain ⟨block, c2, _, _, rfl⟩ := applyInlineStylesStep_spec h
  by_cases hc : (sliceJs block.chars selection.getStartOffset
        selection.getEndOffset).map (fun c => c.style) =
      List.replicate ((sliceJs block.chars selection.getStartOffset
        selection.getEndOffset).map (fun c => c.style)).length styles
  · rw [if_pos hc]
  · simp only [if_neg hc]
    omega

theorem applyChangesStep_le {a : ContentState} {n : Nat} {ch : StyleChange}
    {r : ContentState × Nat} (h : applyChangesStep (a, n) ch = .ok r) : n ≤ r.2 := by
  obtain ⟨block, _, happly⟩ := applyChangesStep_spec h
  exact foldlM_counter_le _ (fun a' n' st r' h' => applyInlineStylesStep_le h')
    ch.styles a n r happly

theorem styleLoopGo_noop (st : Style) :
    ∀ (n : Nat) (chars : List CharMeta) (i : Nat),
      (∀ j (c : CharMeta), i ≤ j → j < i + n → chars[j]? = some c →
        applyStyleChar st c = c) →
      i + n ≤ chars.length →
      styleLoopGo st n chars i = .ok chars := by
  intro n
  induction n with
  | zero => intro chars i _ _; rfl
  | succ m ih =>
    intro chars i h hlen
    have hi : i < chars.length := by omega
    have hg : chars[i]? = some chars[i] := List.getElem?_eq_getElem hi
    have hfix := h i chars[i] (le_refl i) (by omega) hg
    unfold styleLoopGo
    rw [hg]
    show styleLoopGo st m (chars.set i (applyStyleChar st chars[i])) (i + 1)
      = Except.ok chars
    rw [hfix, set_eq_self_of_getElem? hg]
    exact ih chars (i + 1) (fun j c h1 h2 h3 => h j c (by omega) (by omega) h3) (by omega)

theorem styleLoop_noop {st : Style} {chars : List CharMeta} {i : Nat} {e : Int}
    (hle : e ≤ (chars.length : Int))
    (h : ∀ j (c : CharMeta), i ≤ j → (j : Int) < e → chars[j]? = some c →
      applyStyleChar st c = c) :
    styleLoop st chars i e = .ok chars := by
  unfold styleLoop
  by_cases hie : e ≤ (i : Int)
  · rw [show (e - (i : Int)).toNat = 0 by omega]
    rfl
  · exact styleLoopGo_noop st _ chars i
      (fun j c h1 h2 h3 => h j c h1 (by omega) h3) (by omega)

theorem modifier_noop {content : ContentState} {selection : SelectionState}
    {st : Style} {block : ContentBlock}
    (hnod : (content.map (fun b => b.key)).Nodup)
    (hb : getBlockForKey content selection.getStartKey = some block)
    (hle : selection.getEndOffset ≤ (block.chars.length : Int))
    (h : ∀ j (c : CharMeta), selection.getStartOffset.toNat ≤ j →
      (j : Int) < selection.getEndOffset → block.chars[j]? = some c → st ∈ c.style) :
    modifierApplyInlineStyle content selection st = .ok content := by
  unfold modifierApplyInlineStyle
  rw [hb]
  show Except.map _
    (styleLoop st block.chars selection.getStartOffset.toNat selection.getEndOffset) = _
  rw [styleLoop_noop hle (fun j c h1 h2 h3 => by
    have hmem := h j c h1 h2 h3
    simp [applyStyleChar, insertStyle_of_mem hmem])]
  simp only [Except.map, Except.ok.injEq]
  have hpt : ∀ b ∈ content,
      (if b.key == selection.getStartKey then { b with chars := block.chars } else b) = b := by
    intro b hbmem
    by_cases hk : (b.key == selection.getStartKey) = true
    · have hbb : b = block := eq_of_mem_of_nodup_keys hnod hbmem (getBlockForKey_mem hb)
        (by rw [getBlockForKey_key hb]; exact eq_of_beq hk)
      subst hbb
      rw [if_pos hk]
    · rw [if_neg hk]
  calc content.map (fun b => if b.key == selection.getStartKey
          then { b with chars := block.chars } else b)
      = content.map id := List.map_congr_left hpt
    _ = content := List.map_id content

theorem sliceJs_cond_styles {chars : List CharMeta} {a e : Int} {styles : List Style}
    (hsl : (sliceJs chars a e).map (fun c => c.style) =
      List.replicate ((sliceJs chars a e).map (fun c => c.style)).length styles)
    (ha : 0 ≤ a) (hle : e ≤ (chars.length : Int)) :
    ∀ j (c : CharMeta), a.toNat ≤ j → (j : Int) < e → chars[j]? = some c →
      c.style = styles := by
  intro j c hj hje hc
  have hjlen : j < chars.length := by
    by_contra hge
    rw [List.getElem?_eq_none (by omega)] at hc
    cases hc
  have he0 : 0 ≤ e := by omega
  have hrb : resolveIndex a chars.length = a.toNat := by
    unfold resolveIndex
    rw [if_neg (by omega)]
    omega
  have hre : resolveIndex e chars.length = e.toNat := by
    unfold resolveIndex
    rw [if_neg (by omega)]
    omega
  have hslice : (sliceJs chars a e)[j - a.toNat]? = some c := by
    unfold sliceJs
    rw [hrb, hre, List.getElem?_drop, List.getElem?_take]
    rw [if_pos (by omega)]
    rw [show a.toNat + (j - a.toNat) = j by omega]
    exact hc
  have hmap : ((sliceJs chars a e).map (fun c => c.style))[j - a.toNat]? = some c.style := by
    rw [List.getElem?_map, hslice]
    rfl
  rw [hsl, List.getElem?_replicate] at hmap
  by_cases hlt : j - a.toNat < ((sliceJs chars a e).map (fun c => c.style)).length
  · rw [if_pos hlt] at hmap
    injection hmap with hmap
    exact hmap.symm
  · rw [if_neg hlt] at hmap
    exact Option.noConfusion hmap

theorem applyInlineStyles_noop {content : ContentState} {selection : SelectionState}
    {styles : List Style} {n : Nat} {block : ContentBlock}
    (hnod : (content.map (fun b => b.key)).Nodup)
    (hb : getBlockForKey content selection.getStartKey = some block)
    (hle : selection.getEndOffset ≤ (block.chars.length : Int))
    (hanchor : 0 ≤ selection.getStartOffset)
    (hsl : (sliceJs block.chars selection.getStartOffset selection.getEndOffset).map
        (fun c => c.style) =
      List.replicate ((sliceJs block.chars selection.getStartOffset
        selection.getEndOffset).map (fun c => c.style)).length styles) :
    applyInlineStyles content selection styles n = .ok (content, n) := by
  unfold applyInlineStyles
  suffices hgen : ∀ l : List Style, (∀ st ∈ l, st ∈ styles) →
      l.foldlM (applyInlineStylesStep content selection styles) (content, n)
        = .ok (content, n) by
    exact hgen styles (fun _ h => h)
  intro l
  induction l with
  | nil => intro _; rfl
  | cons st tl ih =>
    intro hl
    rw [List.foldlM_cons]
    have hmemstyle : ∀ j (c : CharMeta), selection.getStartOffset.toNat ≤ j →
        (j : Int) < selection.getEndOffset → block.chars[j]? = some c → st ∈ c.style := by
      intro j c h1 h2 h3
      rw [sliceJs_cond_styles hsl hanchor hle j c h1 h2 h3]
      exact hl st (List.mem_cons_self st tl)
    have hstep : applyInlineStylesStep content selection styles (content, n) st
        = .ok (content, n) := by
      unfold applyInlineStylesStep
      rw [hb]
      simp only [exceptBind_ok, exceptPure]
      rw [modifier_noop hnod hb hle hmemstyle]
      simp only [exceptBind_ok, exceptPure]
      rw [if_pos hsl]
    rw [hstep]
    simp only [exceptBind_ok]
    exact ih (fun st' h' => hl st' (List.mem_cons_of_mem st h'))

end DraftInline

namespace DraftInline

theorem applyChangesCore_noop {c : ContentState}
    (hnod : (c.map (fun b => b.key)).Nodup)
    {l : List StyleChange} (hcond : ∀ ch ∈ l, changeIsNoop c ch) :
    applyChangesCore l c = .ok (c, 0) := by
  unfold applyChangesCore
  suffices hgen : ∀ (l' : List StyleChange) (n : Nat), (∀ ch ∈ l', changeIsNoop c ch) →
      l'.foldlM applyChangesStep (c, n) = .ok (c, n) by
    exact hgen l 0 hcond
  intro l'
  induction l' with
  | nil => intro n _; rfl
  | cons ch tl ih =>
    intro n h
    obtain ⟨block, hb, hsl⟩ := h ch (List.mem_cons_self ch tl)
    rw [List.foldlM_cons]
    have hstep : applyChangesStep (c, n) ch = .ok (c, n) := by
      unfold applyChangesStep
      rw [hb]
      simp only [exceptBind_ok, exceptPure]
      exact applyInlineStyles_noop hnod (by rw [limitSelection_getStartKey]; exact hb)
        ((limitSelection_bounds ch block).2.2) ((limitSelection_bounds ch block).2.1) hsl
    rw [hstep]
    simp only [exceptBind_ok]
    exact ih n (fun ch' h' => h ch' (List.mem_cons_of_mem ch h'))

theorem applyChangesCore_zero_eq {changes : List StyleChange}
    {content : ContentState} {r : ContentState × Nat}
    (hnod : (content.map (fun b => b.key)).Nodup)
    (h : applyChangesCore changes content = .ok r) (hz : r.2 = 0) :
    r.1 = content := by
  unfold applyChangesCore at h
  suffices hgen : ∀ (l : List StyleChange) (a : ContentState),
      (a.map (fun b => b.key)).Nodup →
      l.foldlM applyChangesStep (a, 0) = .ok r → r.1 = a by
    exact hgen changes content hnod h
  intro l
  induction l with
  | nil =>
    intro a _ h0
    simp only [List.foldlM_nil] at h0
    cases h0
    rfl
  | cons ch tl ih =>
    intro a hnoda h0
    rw [List.foldlM_cons] at h0
    cases hstep : applyChangesStep (a, 0) ch with
    | error e => rw [hstep] at h0; cases h0
    | ok acc =>
      rw [hstep] at h0
      simp only [exceptBind_ok] at h0
      obtain ⟨a1, n1⟩ := acc
      have hmono := foldlM_counter_le _
        (fun a' n' ch' r' h' => applyChangesStep_le h') tl a1 n1 r h0
      have hn1 : n1 = 0 := by omega
      subst hn1
      obtain ⟨block, hb, happly⟩ := applyChangesStep_spec hstep
      have hnoop : applyInlineStyles a
          (limitSelection (createSelectionForChange ch) block) ch.styles 0
          = .ok (a, 0) := by
        by_cases hstyles : ch.styles = []
        · rw [hstyles]
          rfl
        · have hcnt := c7_counter_full_list a
            (limitSelection (createSelectionForChange ch) block) ch.styles 0 block (a1, 0)
            (by rw [limitSelection_getStartKey]; exact hb) happly
          simp only at hcnt
          have hcond : (sliceJs block.chars
              (limitSelection (createSelectionForChange ch) block).getStartOffset
              (limitSelection (createSelectionForChange ch) block).getEndOffset).map
                (fun cc => cc.style) =
              List.replicate (sliceJs block.chars
                (limitSelection (createSelectionForChange ch) block).getStartOffset
                (limitSelection (createSelectionForChange ch) block).getEndOffset).length
                ch.styles := by
            by_contra hnc
            rw [if_neg hnc] at hcnt
            have hpos : 0 < ch.styles.length := List.length_pos.mpr hstyles
            omega
          exact applyInlineStyles_noop hnoda
            (by rw [limitSelection_getStartKey]; exact hb)
            ((limitSelection_bounds ch block).2.2)
            ((limitSelection_bounds ch block).2.1)
            (by rw [List.length_map]; exact hcond)
      have hsame : ((a : ContentState), (0 : Nat)) = (a1, 0) := by
        have := hnoop.symm.trans happly
        injection this
      have ha1 : a1 = a := by
        injection hsame with h1 h2
        exact h1.symm
      rw [ha1] at h0
      exact ih a hnoda h0

end DraftInline

namespace DraftInline

/-- C6: when two rules report overlapping in-bounds ranges with different
styles in one pass, both take effect — every character in the overlap ends
up carrying every style of both rules (the union of the two style sets).
The hypothesis that some style of the first rule is missing from the
character guarantees the pass actually produces a new state. -/
theorem c6_overlap_union
    (decorators : List InlineStyleDecorator) (state : EditorState)
    (d1 d2 : InlineStyleDecorator) (block : ContentBlock) (i : Nat)
    (s1 e1 s2 e2 : Int) (cm0 : CharMeta) (x : Style)
    (hnod : (state.currentContent.map (fun b => b.key)).Nodup)
    (hok : ∀ d ∈ decorators, ∀ b ∈ state.currentContent, ∃ ps, d.strategy b = .ok ps)
    (hd1 : d1 ∈ decorators) (hd2 : d2 ∈ decorators)
    (hbmem : block ∈ state.currentContent)
    (hp1 : (s1, e1) ∈ reportedPairs d1 block)
    (hp2 : (s2, e2) ∈ reportedPairs d2 block)
    (hi1 : max s1 0 ≤ (i : Int) ∧ (i : Int) < min (block.chars.length : Int) e1)
    (hi2 : max s2 0 ≤ (i : Int) ∧ (i : Int) < min (block.chars.length : Int) e2)
    (hcm : block.chars[i]? = some cm0)
    (hx : x ∈ d1.styles) (hxn : x ∉ cm0.style) :
    ∃ s' cm', syncExecuteStrategies decorators state = .ok (some s') ∧
      charAt s'.currentContent block.key i = some cm' ∧
      (∀ st, st ∈ d1.styles ∨ st ∈ d2.styles → st ∈ cm'.style) := by
  have hcoll := collectAll_ok decorators state hok
  obtain ⟨r, hr, hrkeys, hrtext⟩ := applyChangesCore_ok
    (collectSpec decorators state.currentContent) state.currentContent
    (collectSpec_keys decorators state.currentContent)
  obtain ⟨c1, n1⟩ := r
  simp only at hrkeys hrtext
  have hself : getBlockForKey state.currentContent block.key = some block :=
    getBlockForKey_self hnod hbmem
  have hchar0 : charAt state.currentContent block.key i = some cm0 := by
    unfold charAt
    rw [hself]
    simpa using hcm
  have hlen0 : lenAt state.currentContent block.key = block.chars.length := by
    unfold lenAt
    rw [hself]
    rfl
  have hcharR := applyChangesCore_charAt hr block.key i
  rw [hchar0, hlen0] at hcharR
  simp only [Option.map_some'] at hcharR
  have hch1 : mkChange d1 block (s1, e1) ∈ collectSpec decorators state.currentContent :=
    mkChange_mem_collectSpec hd1 hbmem hp1
  have hch2 : mkChange d2 block (s2, e2) ∈ collectSpec decorators state.currentContent :=
    mkChange_mem_collectSpec hd2 hbmem hp2
  have hcov1 : coversB (mkChange d1 block (s1, e1)) block.chars.length block.key i = true := by
    rw [coversB_iff]
    exact ⟨rfl, hi1.1, hi1.2⟩
  have hcov2 : coversB (mkChange d2 block (s2, e2)) block.chars.length block.key i = true := by
    rw [coversB_iff]
    exact ⟨rfl, hi2.1, hi2.2⟩
  have hxfinal : x ∈ (reconcileChar (collectSpec decorators state.currentContent)
      block.chars.length block.key i cm0).style :=
    reconcileChar_mem_of_cover hch1 hcov1 hx
  have hchanged : c1 ≠ state.currentContent := by
    intro heq
    rw [heq, hchar0] at hcharR
    injection hcharR with hinj
    rw [hinj] at hxn
    exact hxn hxfinal
  have hnz : n1 ≠ 0 := fun h0 => hchanged (applyChangesCore_zero_eq hnod hr h0)
  refine ⟨resetStateToUnstyled (EditorState.acceptSelection
      (EditorState.push state c1) state.selection),
    reconcileChar (collectSpec decorators state.currentContent)
      block.chars.length block.key i cm0, ?_, ?_, ?_⟩
  · unfold syncExecuteStrategies
    rw [hcoll]
    simp only [exceptBind_ok]
    unfold applyChangesToState
    rw [hr]
    simp only [exceptBind_ok, exceptPure]
    rw [if_neg hnz]
  · exact hcharR
  · intro st hst
    rcases hst with hst | hst
    · exact reconcileChar_mem_of_cover hch1 hcov1 hst
    · exact reconcileChar_mem_of_cover hch2 hcov2 hst

theorem c6_overlap_witness :
    ∃ s' cm', syncExecuteStrategies [c6exD1, c6exD2] c6exState = .ok (some s') ∧
      charAt s'.currentContent c6exBlock.key 2 = some cm' ∧
      (∀ st, st ∈ c6exD1.styles ∨ st ∈ c6exD2.styles → st ∈ cm'.style) :=
  c6_overlap_union [c6exD1, c6exD2] c6exState c6exD1 c6exD2 c6exBlock 2
    0 3 1 4 { ch := 'c', style := [] } "B"
    (by decide)
    (by
      intro d hd b _
      rcases List.mem_cons.mp hd with rfl | hd'
      · exact ⟨[(0, 3)], rfl⟩
      · rcases List.mem_singleton.mp hd' with rfl
        exact ⟨[(1, 4)], rfl⟩)
    (List.mem_cons_self _ _)
    (List.mem_cons_of_mem _ (List.mem_singleton.mpr rfl))
    (by decide)
    (by decide) (by decide)
    (by decide) (by decide)
    (by decide) (by decide) (by decide)

end DraftInline

namespace DraftInline

/-! ## Uniform-style characterization for the idempotence theorem -/

theorem resolveIndex_le (i : Int) (n : Nat) : resolveIndex i n ≤ n := by
  unfold resolveIndex
  split <;> omega

theorem sliceJs_length {α : Type} (l : List α) (bi ei : Int) :
    (sliceJs l bi ei).length =
      min (resolveIndex ei l.length) l.length - resolveIndex bi l.length := by
  simp [sliceJs, List.length_drop, List.length_take]

theorem sliceJs_map_replicate {chars : List CharMeta} {bi ei : Int} {L : List Style}
    (h : ∀ j (c : CharMeta), resolveIndex bi chars.length ≤ j →
      j < resolveIndex ei chars.length → chars[j]? = some c → c.style = L) :
    (sliceJs chars bi ei).map (fun c => c.style) =
      List.replicate ((sliceJs chars bi ei).map (fun c => c.style)).length L := by
  apply List.ext_getElem?
  intro m
  have hrb := resolveIndex_le bi chars.length
  have hre := resolveIndex_le ei chars.length
  have hlen := sliceJs_length chars bi ei
  rw [List.getElem?_map, List.getElem?_replicate]
  by_cases hm : m < ((sliceJs chars bi ei).map (fun c => c.style)).length
  · rw [if_pos hm]
    rw [List.length_map] at hm
    have hidx : (sliceJs chars bi ei)[m]? =
        chars[resolveIndex bi chars.length + m]? := by
      unfold sliceJs
      rw [List.getElem?_drop, List.getElem?_take, if_pos (by omega)]
    have hj : resolveIndex bi chars.length + m < chars.length := by omega
    rw [hidx, List.getElem?_eq_getElem hj]
    have hc := h (resolveIndex bi chars.length + m)
      chars[resolveIndex bi chars.length + m] (by omega) (by omega)
      (List.getElem?_eq_getElem hj)
    simp [hc]
  · rw [if_neg hm]
    rw [List.length_map] at hm
    rw [List.getElem?_eq_none (by omega)]
    rfl

theorem getBlockForKey_none {c : ContentState} {k : String}
    (h : k ∉ c.map (fun b => b.key)) : getBlockForKey c k = none := by
  unfold getBlockForKey
  rw [List.find?_eq_none]
  intro b hb
  simp only [beq_iff_eq]
  intro hkey
  exact h (List.mem_map.mpr ⟨b, hb, hkey⟩)

theorem sig_of_keys_textAt :
    ∀ (c c' : ContentState),
      (c.map (fun b => b.key)).Nodup →
      c'.map (fun b => b.key) = c.map (fun b => b.key) →
      (∀ k, textAt c' k = textAt c k) →
      c'.map (fun b => (b.key, b.getText)) = c.map (fun b => (b.key, b.getText)) := by
  intro c
  induction c with
  | nil =>
    intro c' _ hkeys _
    simp only [List.map_nil] at hkeys ⊢
    exact List.map_eq_nil_iff.mpr (List.map_eq_nil_iff.mp hkeys)
  | cons b tl ih =>
    intro c' hnod hkeys htext
    cases c' with
    | nil => simp at hkeys
    | cons b' tl' =>
      simp only [List.map_cons, List.cons.injEq] at hkeys
      obtain ⟨hkey, hkeystl⟩ := hkeys
      have hnod' := hnod
      rw [List.map_cons, List.nodup_cons] at hnod'
      have hbnot : b.key ∉ tl.map (fun x => x.key) := hnod'.1
      have htltext : ∀ k, textAt tl' k = textAt tl k := by
        intro k
        by_cases hk : k = b.key
        · subst hk
          unfold textAt
          rw [@getBlockForKey_none tl' b.key (by rw [hkeystl]; exact hbnot),
            getBlockForKey_none hbnot]
        · have h1 : textAt (b' :: tl') k = textAt tl' k := by
            unfold textAt getBlockForKey
            rw [List.find?_cons_of_neg _ (by
              simp only [hkey, beq_iff_eq]
              exact fun h => hk h.symm)]
          have h2 : textAt (b :: tl) k = textAt tl k := by
            unfold textAt getBlockForKey
            rw [List.find?_cons_of_neg _ (by
              simp only [beq_iff_eq]
              exact fun h => hk h.symm)]
          rw [← h1, ← h2]
          exact htext k
      have hheadtext : b'.getText = b.getText := by
        have h1 : textAt (b' :: tl') b.key = some b'.getText := by
          unfold textAt getBlockForKey
          rw [List.find?_cons_of_pos _ (by simp [hkey])]
          rfl
        have h2 : textAt (b :: tl) b.key = some b.getText := by
          unfold textAt getBlockForKey
          rw [List.find?_cons_of_pos _ (by simp)]
          rfl
        have := (h1.symm.trans (htext b.key)).trans h2
        injection this
      rw [List.map_cons, List.map_cons, ih tl' hnod'.2 hkeystl htltext]
      congr 1
      rw [hkey, hheadtext]

end DraftInline


namespace DraftInline

theorem blocks_flatMap_congr (d : InlineStyleDecorator)
    (hd : ∀ b b' : ContentBlock, b.key = b'.key → b.getText = b'.getText →
      d.strategy b = d.strategy b') :
    ∀ (blocks blocks' : List ContentBlock),
      blocks'.map (fun b => (b.key, b.getText)) = blocks.map (fun b => (b.key, b.getText)) →
      blocks'.flatMap (fun b => (reportedPairs d b).map (mkChange d b)) =
        blocks.flatMap (fun b => (reportedPairs d b).map (mkChange d b)) := by
  intro blocks
  induction blocks with
  | nil =>
    intro blocks' hsig
    have hnil : blocks' = [] := by
      cases blocks' with
      | nil => rfl
      | cons x xs => simp at hsig
    subst hnil
    rfl
  | cons b tl ih =>
    intro blocks' hsig
    cases blocks' with
    | nil => simp at hsig
    | cons b' tl' =>
      simp only [List.map_cons, List.cons.injEq, Prod.mk.injEq] at hsig
      obtain ⟨⟨hkey, htxt⟩, hsigtl⟩ := hsig
      rw [List.flatMap_cons, List.flatMap_cons, ih tl' hsigtl]
      congr 1
      have hrep : reportedPairs d b' = reportedPairs d b := by
        unfold reportedPairs
        rw [hd b' b hkey htxt]
      rw [hrep]
      apply List.map_congr_left
      intro p _
      unfold mkChange
      rw [hkey]

theorem collectSpec_congr :
    ∀ (decorators : List InlineStyleDecorator) (blocks blocks' : List ContentBlock),
      blocks'.map (fun b => (b.key, b.getText)) = blocks.map (fun b => (b.key, b.getText)) →
      (∀ d ∈ decorators, ∀ b b' : ContentBlock, b.key = b'.key → b.getText = b'.getText →
        d.strategy b = d.strategy b') →
      collectSpec decorators blocks' = collectSpec decorators blocks := by
  intro decorators
  induction decorators with
  | nil => intro _ _ _ _; rfl
  | cons d tl ih =>
    intro blocks blocks' hsig htext
    unfold collectSpec
    rw [List.flatMap_cons, List.flatMap_cons]
    rw [blocks_flatMap_congr d (htext d (List.mem_cons_self d tl)) blocks blocks' hsig]
    congr 1
    have hrest := ih blocks blocks' hsig
      (fun d' hd' => htext d' (List.mem_cons_of_mem d hd'))
    unfold collectSpec at hrest
    exact hrest

theorem reconcileChar_keep :
    ∀ (changes : List StyleChange) (len : Nat) (k : String) (i : Nat) (L : List Style)
      (cm : CharMeta),
      (∀ ch ∈ changes, coversB ch len k i = true → ch.styles = L) →
      cm.style = L →
      (reconcileChar changes len k i cm).style = L := by
  intro changes len k i L
  induction changes with
  | nil => intro cm _ hcm; exact hcm
  | cons ch tl ih =>
    intro cm hcov hcm
    rw [reconcileChar_cons]
    by_cases hc : coversB ch len k i = true
    · rw [if_pos hc]
      apply ih _ (fun ch' h' hc' => hcov ch' (List.mem_cons_of_mem _ h') hc')
      rw [(applyAll_style ch.styles cm).1, hcov ch (List.mem_cons_self _ _) hc, hcm]
      exact insertAll_of_subset (fun x hx => hx)
    · rw [if_neg hc]
      exact ih _ (fun ch' h' hc' => hcov ch' (List.mem_cons_of_mem _ h') hc') hcm

theorem reconcileChar_uniform :
    ∀ (changes : List StyleChange) (len : Nat) (k : String) (i : Nat) (L : List Style)
      (cm : CharMeta),
      (∀ ch ∈ changes, coversB ch len k i = true → ch.styles = L) →
      (∃ ch ∈ changes, coversB ch len k i = true) →
      L.Nodup → cm.style = [] →
      (reconcileChar changes len k i cm).style = L := by
  intro changes len k i L
  induction changes with
  | nil =>
    intro cm _ hex _ _
    rcases hex with ⟨ch, h, _⟩
    cases h
  | cons ch tl ih =>
    intro cm hcov hex hnodL hcm
    rw [reconcileChar_cons]
    by_cases hc : coversB ch len k i = true
    · rw [if_pos hc]
      apply reconcileChar_keep tl len k i L _
        (fun ch' h' hc' => hcov ch' (List.mem_cons_of_mem _ h') hc')
      rw [(applyAll_style ch.styles cm).1, hcov ch (List.mem_cons_self _ _) hc, hcm]
      exact insertAll_nil_of_nodup hnodL
    · rw [if_neg hc]
      apply ih _ (fun ch' h' hc' => hcov ch' (List.mem_cons_of_mem _ h') hc') ?hex hnodL hcm
      case hex =>
        rcases hex with ⟨ch', hmem, hcov'⟩
        rcases List.mem_cons.mp hmem with rfl | hmem'
        · exact absurd hcov' hc
        · exact ⟨ch', hmem', hcov'⟩

end DraftInline

namespace DraftInline

/-- C1, counterexample: idempotence fails on a document whose characters
already carry a foreign style ("X"): the uniformity comparison (whole style
list equality) keeps failing on every pass, so the second pass still
reports `changesApplied = 1`. -/
theorem c1_counterexample :
    syncExecuteStrategies [exDecorator] exStyledState = .ok (some exStyledResult) ∧
      passCount [exDecorator] exStyledResult = .ok 1 ∧
      (1 : Nat) ≠ 0 := by
  refine ⟨by decide, by decide, by decide⟩

/-- C1 (amended): reconciliation is idempotent when the first pass starts
from a document with no pre-existing inline styles, under matchers that
never throw, depend only on a block's key and text, report ranges with
non-negative end offsets, and whose clamped ranges overlap only when the
rules carry the same duplicate-free style list.  (In general a second pass
can report changes — see the counterexample.) -/
theorem c1_idempotent_when_disjoint
    (decorators : List InlineStyleDecorator) (state : EditorState)
    (hnod : (state.currentContent.map (fun b => b.key)).Nodup)
    (hunstyled : ∀ b ∈ state.currentContent, ∀ cm ∈ b.chars, cm.style = [])
    (hok : ∀ d ∈ decorators, ∀ b ∈ state.currentContent, ∃ ps, d.strategy b = .ok ps)
    (htextdep : ∀ d ∈ decorators, ∀ b b' : ContentBlock, b.key = b'.key →
      b.getText = b'.getText → d.strategy b = d.strategy b')
    (hend : ∀ d ∈ decorators, ∀ b ∈ state.currentContent, ∀ p ∈ reportedPairs d b,
      (0 : Int) ≤ p.2)
    (hnodStyles : ∀ d ∈ decorators, d.styles.Nodup)
    (hoverlap : ∀ d ∈ decorators, ∀ d' ∈ decorators, ∀ b ∈ state.currentContent,
      ∀ p ∈ reportedPairs d b, ∀ p' ∈ reportedPairs d' b, ∀ i : Nat,
      max p.1 0 ≤ (i : Int) → (i : Int) < min (b.chars.length : Int) p.2 →
      max p'.1 0 ≤ (i : Int) → (i : Int) < min (b.chars.length : Int) p'.2 →
      d.styles = d'.styles) :
    ∃ s1, syncExecuteStrategies decorators state = .ok (some s1) ∧
      passCount decorators s1 = .ok 0 := by
  have hcoll := collectAll_ok decorators state hok
  obtain ⟨r, hr, hrkeys, hrtext⟩ := applyChangesCore_ok
    (collectSpec decorators state.currentContent) state.currentContent
    (collectSpec_keys decorators state.currentContent)
  obtain ⟨c1, n1⟩ := r
  simp only at hrkeys hrtext
  by_cases hz : n1 = 0
  · subst hz
    refine ⟨state, ?_, ?_⟩
    · unfold syncExecuteStrategies
      rw [hcoll]
      simp only [exceptBind_ok]
      unfold applyChangesToState
      rw [hr]
      simp only [exceptBind_ok, exceptPure]
      rfl
    · unfold passCount
      rw [hcoll]
      simp only [exceptBind_ok]
      rw [hr]
      rfl
  · refine ⟨resetStateToUnstyled (EditorState.acceptSelection
      (EditorState.push state c1) state.selection), ?_, ?_⟩
    · unfold syncExecuteStrategies
      rw [hcoll]
      simp only [exceptBind_ok]
      unfold applyChangesToState
      rw [hr]
      simp only [exceptBind_ok, exceptPure]
      rw [if_neg hz]
    · -- the second pass over the new content applies zero changes
      have hnod1 : (c1.map (fun b => b.key)).Nodup := by
        rw [hrkeys]
        exact hnod
      have hsig : c1.map (fun b => (b.key, b.getText))
          = state.currentContent.map (fun b => (b.key, b.getText)) :=
        sig_of_keys_textAt state.currentContent c1 hnod hrkeys hrtext
      have hok1 : ∀ d ∈ decorators, ∀ b1 ∈ c1, ∃ ps, d.strategy b1 = .ok ps := by
        intro d hd b1 hb1
        have hmem : (b1.key, b1.getText)
            ∈ state.currentContent.map (fun b => (b.key, b.getText)) := by
          rw [← hsig]
          exact List.mem_map.mpr ⟨b1, hb1, rfl⟩
        rcases List.mem_map.mp hmem with ⟨b0, hb0, hsb⟩
        have hk : b0.key = b1.key := (Prod.mk.injEq _ _ _ _ ▸ hsb).1
        have ht : b0.getText = b1.getText := (Prod.mk.injEq _ _ _ _ ▸ hsb).2
        rw [htextdep d hd b1 b0 hk.symm ht.symm]
        exact hok d hd b0 hb0
      have hspec1 : collectSpec decorators c1
          = collectSpec decorators state.currentContent :=
        collectSpec_congr decorators state.currentContent c1 hsig htextdep
      have hcoll1 : collectAll decorators (resetStateToUnstyled
          (EditorState.acceptSelection (EditorState.push state c1) state.selection))
          = .ok (collectSpec decorators state.currentContent) := by
        have h1 := collectAll_ok decorators (resetStateToUnstyled
          (EditorState.acceptSelection (EditorState.push state c1) state.selection))
          hok1
        rw [h1]
        show Except.ok (collectSpec decorators c1) = _
        rw [hspec1]
      have hnoop : ∀ ch ∈ collectSpec decorators state.currentContent,
          changeIsNoop c1 ch := by
        intro ch hch
        obtain ⟨d, hd, b, hb, p, hp, rfl⟩ := mem_collectSpec hch
        obtain ⟨s, e⟩ := p
        have hkmem : (mkChange d b (s, e)).blockKey ∈ c1.map (fun bb => bb.key) := by
          rw [hrkeys]
          exact List.mem_map.mpr ⟨b, hb, rfl⟩
        obtain ⟨b1, hb1⟩ := getBlockForKey_isSome hkmem
        refine ⟨b1, hb1, ?_⟩
        have hself0 : getBlockForKey state.currentContent b.key = some b :=
          getBlockForKey_self hnod hb
        have htxt1 : b1.getText = b.getText := by
          have h1 : textAt c1 (mkChange d b (s, e)).blockKey = some b1.getText := by
            unfold textAt
            rw [hb1]
            rfl
          have h2 : textAt state.currentContent b.key = some b.getText := by
            unfold textAt
            rw [hself0]
            rfl
          have h3 := (h1.symm.trans (hrtext _)).trans h2
          injection h3
        have hlen1 : b1.chars.length = b.chars.length := by
          have := congrArg List.length htxt1
          simpa [ContentBlock.getText] using this
        rw [limitSelection_getStartOffset, limitSelection_getEndOffset]
        apply sliceJs_map_replicate
        intro j cj hjlo hjhi hcj
        have he0 : (0 : Int) ≤ e := hend d hd b hb (s, e) hp
        have hrb : resolveIndex ((mkChange d b (s, e)).start ⊔ 0) b1.chars.length
            = min ((s : Int) ⊔ 0).toNat b1.chars.length := by
          unfold resolveIndex
          rw [if_neg (by simp [mkChange])]
          rfl
        have hre : resolveIndex (min ((b1.getText.length : Int))
              (mkChange d b (s, e)).«end») b1.chars.length
            = (min ((b.chars.length : Int)) e).toNat := by
          have hfocus : (min ((b1.getText.length : Int)) (mkChange d b (s, e)).«end»)
              = min ((b.chars.length : Int)) e := by
            rw [htxt1, getText_length]
            rfl
          rw [hfocus]
          unfold resolveIndex
          rw [if_neg (by omega)]
          rw [hlen1]
          omega
        rw [hrb] at hjlo
        rw [hre] at hjhi
        have hjlen : j < b.chars.length := by omega
        have hjcov1 : ((s : Int) ⊔ 0) ≤ (j : Int) := by omega
        have hjcov2 : (j : Int) < min ((b.chars.length : Int)) e := by omega
        have hchar0j : charAt state.currentContent b.key j
            = some (b.chars.get ⟨j, hjlen⟩) := by
          unfold charAt
          rw [hself0]
          simp [List.getElem?_eq_getElem hjlen, List.get_eq_getElem]
        have hstyle0 : (b.chars.get ⟨j, hjlen⟩).style = [] :=
          hunstyled b hb _ (List.getElem_mem hjlen)
        have hlenB0 : lenAt state.currentContent b.key = b.chars.length := by
          unfold lenAt
          rw [hself0]
          rfl
        have hb1' : getBlockForKey c1 b.key = some b1 := hb1
        have hcharall : charAt c1 b.key j
            = Option.map (reconcileChar (collectSpec decorators state.currentContent)
                (lenAt state.currentContent b.key) b.key j)
              (charAt state.currentContent b.key j) :=
          applyChangesCore_charAt hr b.key j
        rw [hchar0j, hlenB0] at hcharall
        simp only [Option.map_some'] at hcharall
        have hcharc1 : charAt c1 b.key j = some cj := by
          unfold charAt
          rw [hb1']
          simpa using hcj
        rw [hcharc1] at hcharall
        injection hcharall with hcj_eq
        rw [hcj_eq]
        show (reconcileChar (collectSpec decorators state.currentContent)
          b.chars.length b.key j (b.chars.get ⟨j, hjlen⟩)).style = (mkChange d b (s, e)).styles
        apply reconcileChar_uniform _ _ _ _ d.styles _ ?hcov ?hex
          (hnodStyles d hd) hstyle0
        case hcov =>
          intro ch' hch' hcovch'
          obtain ⟨d', hd', b'', hb'', p'', hp'', rfl⟩ := mem_collectSpec hch'
          rw [coversB_iff] at hcovch'
          obtain ⟨hkeq, hlo', hhi'⟩ := hcovch'
          have hb''b : b'' = b :=
            eq_of_mem_of_nodup_keys hnod hb'' hb hkeq
          subst hb''b
          show d'.styles = d.styles
          exact hoverlap d' hd' d hd b'' hb'' p'' hp'' (s, e) hp j hlo' hhi'
            hjcov1 hjcov2
        case hex =>
          refine ⟨mkChange d b (s, e), hch, ?_⟩
          rw [coversB_iff]
          exact ⟨rfl, hjcov1, hjcov2⟩
      unfold passCount
      rw [hcoll1]
      simp only [exceptBind_ok]
      have hcore1 : applyChangesCore (collectSpec decorators state.currentContent)
          (resetStateToUnstyled (EditorState.acceptSelection
            (EditorState.push state c1) state.selection)).currentContent
          = .ok (c1, 0) := by
        show applyChangesCore _ c1 = _
        exact applyChangesCore_noop hnod1 hnoop
      rw [hcore1]
      rfl

end DraftInline

namespace DraftInline

/-- Witness for C1: a single constant, non-throwing, in-range rule over a
one-block unstyled state; the first pass applies it and the second pass
counts zero changes. -/
theorem c1_idempotent_witness :
    ∃ s1, syncExecuteStrategies [exDecorator] exStateA = .ok (some s1) ∧
      passCount [exDecorator] s1 = .ok 0 :=
  c1_idempotent_when_disjoint [exDecorator] exStateA
    (by decide)
    (by decide)
    (by
      intro d hd b _
      rw [List.mem_singleton] at hd
      subst hd
      exact ⟨[(0, 2)], rfl⟩)
    (by
      intro d hd b b' _ _
      rw [List.mem_singleton] at hd
      subst hd
      rfl)
    (by
      intro d hd b _ p hp
      rw [List.mem_singleton] at hd
      subst hd
      have hp2 : p = (0, 2) := by
        simpa [reportedPairs, exDecorator, Except.toOption, Option.getD] using hp
      rw [hp2]
      decide)
    (by
      intro d hd
      rw [List.mem_singleton] at hd
      subst hd
      decide)
    (by
      intro d hd d' hd' b _ p _ p' _ i _ _ _ _
      rw [List.mem_singleton] at hd
      rw [List.mem_singleton] at hd'
      subst hd
      subst hd'
      rfl)

end DraftInline
